import Mathlib

/-
Verification of an Ant Colony Optimisation solver for the Quadratic
Assignment Problem (main.py).

The embedding models:
  * numpy longdouble values as the type LD: finite rationals together with
    the IEEE special values +inf, -inf and nan (division of 1 by a zero
    fitness yields +inf with only a runtime warning in numpy, so the model
    must be able to represent it);
  * integer and float data (distance and flow matrices, fitness values,
    averages) as exact rationals;
  * numpy arrays as lists (List (List _) for matrices), with numpy index
    normalisation: a negative index i into an axis of size n addresses
    position i + n, and out-of-range indices are errors;
  * fallible operations in the Option monad (none = a raised exception);
  * the random sources as explicit parameters: the initial pheromone matrix
    (np.random.rand), the start node (np.random.randint) and the stream of
    uniform draws consumed by random.choices, indexed by iteration, ant and
    construction step;
  * the data file Uni50a.dat as external input: main receives n, d, f as
    parameters, as the specification describes for the DataSource
    collaborator.
-/

/-- Model of a numpy longdouble value: a finite rational, +inf, -inf or nan. -/
inductive LD where
  | fin (q : ℚ)
  | inf
  | ninf
  | nan
deriving DecidableEq, Repr

/-- IEEE addition on LD values (only +inf ever arises in the program, but
addition is total). -/
def LD.add : LD → LD → LD
  | .nan, _ => .nan
  | _, .nan => .nan
  | .inf, .ninf => .nan
  | .ninf, .inf => .nan
  | .inf, _ => .inf
  | _, .inf => .inf
  | .ninf, _ => .ninf
  | _, .ninf => .ninf
  | .fin a, .fin b => .fin (a + b)

instance : Add LD := ⟨LD.add⟩

instance : Zero LD := ⟨LD.fin 0⟩

/-- IEEE multiplication of an LD value by a finite rational scalar. -/
def LD.mulQ : LD → ℚ → LD
  | .nan, _ => .nan
  | .fin a, e => .fin (a * e)
  | .inf, e => if 0 < e then .inf else if e = 0 then .nan else .ninf
  | .ninf, e => if 0 < e then .ninf else if e = 0 then .nan else .inf

/-- IEEE strict comparison on LD values (all comparisons with nan are false). -/
def LD.ltB : LD → LD → Bool
  | .nan, _ => false
  | _, .nan => false
  | .fin a, .fin b => decide (a < b)
  | .fin _, .inf => true
  | .fin _, .ninf => false
  | .inf, _ => false
  | .ninf, .ninf => false
  | .ninf, _ => true

/-- IEEE non-strict comparison on LD values (all comparisons with nan are false). -/
def LD.leB : LD → LD → Bool
  | .nan, _ => false
  | _, .nan => false
  | .fin a, .fin b => decide (a ≤ b)
  | .fin _, .inf => true
  | .fin _, .ninf => false
  | .inf, .inf => true
  | .inf, _ => false
  | .ninf, _ => true

/-- An LD value is strictly positive (finite case only; used for pheromone
weights). -/
def LD.posB : LD → Bool
  | .fin q => decide (0 < q)
  | _ => false

/-- An LD value is non-negative; +inf counts as non-negative. -/
def LD.nonnegB : LD → Bool
  | .fin q => decide (0 ≤ q)
  | .inf => true
  | _ => false

/-- Strict order on LD values as a proposition (nan is incomparable). -/
def LD.ltP : LD → LD → Prop
  | .fin a, .fin b => a < b
  | .fin _, .inf => True
  | .ninf, .fin _ => True
  | .ninf, .inf => True
  | _, _ => False

/-- Reflexive order on LD values: equal, or strictly below. -/
def LD.le (a b : LD) : Prop := a = b ∨ LD.ltP a b

/-- For-loop over a list whose body may raise (Python for-loop with
exceptions propagating). -/
def optFold {α β : Type} (g : β → α → Option β) : β → List α → Option β
  | b, [] => some b
  | b, a :: l => (g b a).bind (fun b2 => optFold g b2 l)

/-- Map a fallible function over a list, propagating the first error. -/
def optMap {α β : Type} (g : α → Option β) : List α → Option (List β)
  | [] => some []
  | a :: l => (g a).bind (fun b => (optMap g l).map (fun r => b :: r))

/-- numpy index normalisation for an axis of size n: indices in [0, n) are
kept, indices in [-n, 0) address position i + n, anything else raises
IndexError. -/
def normIdx (n : ℕ) (i : ℤ) : Option ℕ :=
  if 0 ≤ i ∧ i < (n : ℤ) then some i.toNat
  else if -(n : ℤ) ≤ i ∧ i < 0 then some (i + n).toNat
  else none

/-- numpy indexing of a list by a possibly negative integer index. -/
def npIdx {α : Type} (l : List α) (i : ℤ) : Option α :=
  (normIdx l.length i).bind (fun k => l.get? k)

/-- Model of np.delete(l, idxs): normalise every index (raising on any
out-of-range index), then drop the elements at those positions, keeping
order; duplicate indices are removed once. -/
def npDelete {α : Type} (l : List α) (idxs : List ℤ) : Option (List α) :=
  (optMap (normIdx l.length) idxs).map (fun ks =>
    ((List.range l.length).filter (fun k => decide (¬ k ∈ ks))).filterMap
      (fun k => l.get? k))

/-- Running sums of a list from an accumulator (itertools.accumulate with a
seed already added). -/
def cumsumFrom (acc : LD) : List LD → List LD
  | [] => []
  | w :: ws => (LD.add acc w) :: cumsumFrom (LD.add acc w) ws

/-- Model of list(itertools.accumulate(weights)) as used by random.choices. -/
def cumsum (ws : List LD) : List LD := cumsumFrom (LD.fin 0) ws

/-- Model of bisect.bisect_right on a list of LD values: binary search for
the insertion point of x within positions [lo, hi]. -/
def bisectRight (a : List LD) (x : LD) (lo hi : ℕ) : ℕ :=
  if h : lo < hi then
    if LD.ltB x (a.getD ((lo + hi) / 2) (LD.fin 0)) then
      bisectRight a x lo ((lo + hi) / 2)
    else
      bisectRight a x ((lo + hi) / 2 + 1) hi
  else lo
termination_by hi - lo
decreasing_by
  all_goals omega

/-- Model of random.choices(population, weights=weights, k=1)[0] with one
uniform draw u: raises if the weights count differs from the population
count, or the population is empty, or the total weight is not positive;
otherwise picks population[bisect_right(cum_weights, u * total, 0, n - 1)]. -/
def random_choices (population : List ℤ) (weights : List LD) (u : ℚ) : Option ℤ :=
  if weights.length ≠ population.length then none
  else
    match (cumsum weights).getLast? with
    | none => none
    | some total =>
      if LD.leB total (LD.fin 0) then none
      else population.get? (bisectRight (cumsum weights) (LD.mulQ total u) 0
        (population.length - 1))

/-- Model of np.arange(0, n) as a list of integers. -/
def idList (n : ℕ) : List ℤ := (List.range n).map Int.ofNat

/-- Body of the path-construction loop of generate_path for step i: remove
the visited nodes from the candidates (and, index-aligned, from the
pheromone row of the last visited node), choose the single remaining node
deterministically at the last step and by pheromone-weighted sampling
otherwise, and append the choice. -/
def genStep (n : ℕ) (pheromones : List (List LD)) (us : ℕ → ℚ)
    (path : List ℤ) (i : ℕ) : Option (List ℤ) := do
  let next_nodes ← npDelete (idList n) path
  if i = n - 1 then do
    let choice ← next_nodes.head?
    pure (path ++ [choice])
  else do
    let last ← path.getLast?
    let row ← npIdx pheromones last
    let next_pheromones ← npDelete row path
    let choice ← random_choices next_nodes next_pheromones (us i)
    pure (path ++ [choice])

/-- Model of generate_path(n, start, pheromones) from main.py.  The loop
for i in range(1, n) is the fold over List.range' 1 (n - 1); us i is the
uniform draw consumed by random.choices at step i. -/
def generate_path (n : ℕ) (start : ℤ) (pheromones : List (List LD))
    (us : ℕ → ℚ) : Option (List ℤ) :=
  optFold (genStep n pheromones us) [start] (List.range' 1 (n - 1))

/-- Model of get_fitness(path, d, f) from main.py: the double loop over
i, j in range(len(path)) accumulating d[i][j] * f[path[i]][path[j]]. -/
def get_fitness (path : List ℤ) (d f : List (List ℚ)) : Option ℚ :=
  optFold (fun fitness i =>
      optFold (fun fitness j => do
          let di ← d.get? i
          let dij ← di.get? j
          let pi ← path.get? i
          let pj ← path.get? j
          let frow ← npIdx f pi
          let fij ← npIdx frow pj
          pure (fitness + dij * fij))
        fitness (List.range path.length))
    0 (List.range path.length)

/-- Model of an n-by-n matrix of longdouble zeros (np.zeros((n,n))). -/
def zerosMat (n : ℕ) : List (List LD) :=
  List.replicate n (List.replicate n (LD.fin 0))

/-- Model of update_pheromones(oneover, path, n) from main.py: start from
zeros and add oneover at cell [path[x]][path[x+1]] for every x in
range(len(path) - 1), with numpy index normalisation. -/
def update_pheromones (oneover : LD) (path : List ℤ) (n : ℕ) :
    Option (List (List LD)) :=
  optFold (fun p x => do
      let i ← normIdx p.length (path.getD x 0)
      let row ← p.get? i
      let j ← normIdx row.length (path.getD (x + 1) 0)
      let v ← row.get? j
      pure (p.set i (row.set j (LD.add v oneover))))
    (zerosMat n) (List.range (path.length - 1))

/-- Element-wise matrix addition, np.add on two matrices of equal shape. -/
def matAddL (a b : List (List LD)) : List (List LD) :=
  List.zipWith (fun r s => List.zipWith LD.add r s) a b

/-- Element-wise multiplication of a matrix by a scalar (pheromones *= e). -/
def matScaleL (a : List (List LD)) (e : ℚ) : List (List LD) :=
  a.map (fun r => r.map (fun v => LD.mulQ v e))

/-- Entry (i, j) of a matrix stored as a list of rows. -/
def entryLD (m : List (List LD)) (i j : ℕ) : LD :=
  (m.getD i []).getD j (LD.fin 0)

/-- Entry (i, j) of a rational matrix stored as a list of rows. -/
def entryQ (m : List (List ℚ)) (i j : ℕ) : ℚ :=
  (m.getD i []).getD j 0

/-- The matrix has n rows, each of length n. -/
def isMat (n : ℕ) (m : List (List LD)) : Prop :=
  m.length = n ∧ ∀ r ∈ m, r.length = n

/-- Model of np.longdouble(1)/np.longdouble(fitness): the reciprocal of the
fitness, which is +inf when the fitness is exactly 0 (numpy emits only a
RuntimeWarning for float division by zero, not an exception). -/
def oneover_of (fitness : ℚ) : LD :=
  if fitness = 0 then LD.inf else LD.fin (1 / fitness)

/-- Running best-fitness update: replace the best only by a strictly
smaller fitness (if fitness < best_fitness in main.py). -/
def bestUpd (best : LD) (fitness : ℚ) : LD :=
  if LD.ltB (LD.fin fitness) best then LD.fin fitness else best

/-- The inputs of one run of main(m, e): the parameters m and e, the data
n, d, f supplied by the data file, and the three random sources
(initial pheromone matrix, start node, uniform draws of random.choices
indexed by iteration, ant and step). -/
structure Cfg where
  m : ℕ
  e : ℚ
  n : ℕ
  d : List (List ℚ)
  f : List (List ℚ)
  pher0 : List (List LD)
  start : ℕ
  us : ℕ → ℕ → ℕ → ℚ

/-- The mutable state of the iteration loop of main: the pheromone matrix,
the running best fitness (starting at +inf) and the list of per-iteration
average fitnesses. -/
structure RunState where
  pher : List (List LD)
  best : LD
  series : List ℚ
deriving DecidableEq, Repr

/-- Body of the inner ant loop of main for ant y of iteration x: build a
path, compute its fitness, update the running best, add the fitness to the
running total, and accumulate the pheromone deposit.  The accumulator is
(total_fitness, pheromone_update, best_fitness). -/
def antBody (cfg : Cfg) (pher : List (List LD)) (x : ℕ)
    (acc : ℚ × List (List LD) × LD) (y : ℕ) :
    Option (ℚ × List (List LD) × LD) := do
  let path ← generate_path cfg.n (Int.ofNat cfg.start) pher (cfg.us x y)
  let fitness ← get_fitness path cfg.d cfg.f
  let best := bestUpd acc.2.2 fitness
  let total := acc.1 + fitness
  let delta ← update_pheromones (oneover_of fitness) path cfg.n
  pure (total, matAddL acc.2.1 delta, best)

/-- One iteration of the loop of main: run m ants against the current
pheromone matrix, then apply the accumulated deposits and evaporate
(pheromones = (pheromones + update) * e), and record the iteration mean. -/
def iterOnce (cfg : Cfg) (s : RunState) (x : ℕ) : Option RunState := do
  let r ← optFold (antBody cfg s.pher x) (0, zerosMat cfg.n, s.best)
    (List.range cfg.m)
  pure ⟨matScaleL (matAddL s.pher r.2.1) cfg.e, r.2.2,
    s.series ++ [r.1 / (cfg.m : ℚ)]⟩

/-- The iteration loop of main over a list of iteration indices. -/
def runFrom (cfg : Cfg) (s : RunState) (L : List ℕ) : Option RunState :=
  optFold (iterOnce cfg) s L

/-- The state at the start of a run: initial random pheromones, best
fitness +inf, no recorded iterations. -/
def initState (cfg : Cfg) : RunState :=
  ⟨cfg.pher0, LD.inf, []⟩

/-- Model of main(m, e) from main.py: iterations = int(10000/m) (Python
floor through float division; m = 0 raises ZeroDivisionError and n = 0
makes np.random.randint(0, n) raise), then the iteration loop; returns the
average-fitness series and the best fitness. -/
def main_run (cfg : Cfg) : Option (List ℚ × LD) :=
  if cfg.m = 0 then none
  else if cfg.n = 0 then none
  else (runFrom cfg (initState cfg) (List.range (10000 / cfg.m))).map
    (fun s => (s.series, s.best))

/-- The fitness of ant y of iteration x against pheromone matrix pher: the
path construction followed by the fitness evaluation. -/
def antFit (cfg : Cfg) (pher : List (List LD)) (x y : ℕ) : Option ℚ :=
  (generate_path cfg.n (Int.ofNat cfg.start) pher (cfg.us x y)).bind
    (fun path => get_fitness path cfg.d cfg.f)

/-- The fitness values of all m ants of iteration x (all ants of one
iteration read the same pheromone matrix). -/
def iterFits (cfg : Cfg) (pher : List (List LD)) (x : ℕ) : Option (List ℚ) :=
  optMap (antFit cfg pher x) (List.range cfg.m)

/-- The fitness values of every ant evaluated along the iterations L of a
run started in state s, in evaluation order. -/
def runFitsGo (cfg : Cfg) : RunState → List ℕ → Option (List ℚ)
  | _, [] => some []
  | s, x :: xs => do
    let fits ← iterFits cfg s.pher x
    let s1 ← iterOnce cfg s x
    let rest ← runFitsGo cfg s1 xs
    pure (fits ++ rest)

/-- The fitness values of every ant evaluated in the run main cfg. -/
def main_fits (cfg : Cfg) : Option (List ℚ) :=
  if cfg.m = 0 then none
  else if cfg.n = 0 then none
  else runFitsGo cfg (initState cfg) (List.range (10000 / cfg.m))

/-- Model of experiments(filename, m, e) from main.py: five replicate runs
of main with the same parameters and independent random sources, collecting
the five mean-fitness series and the five best-fitness scalars (the CSV
and console output are external effects outside the model). -/
def experiments (m : ℕ) (e : ℚ) (n : ℕ) (d f : List (List ℚ))
    (pherR : ℕ → List (List LD)) (startR : ℕ → ℕ)
    (usR : ℕ → ℕ → ℕ → ℕ → ℚ) : Option (List (List ℚ) × List LD) :=
  optFold (fun acc x => do
      let r ← main_run ⟨m, e, n, d, f, pherR x, startR x, usR x⟩
      pure (acc.1 ++ [r.1], acc.2 ++ [r.2]))
    ([], []) (List.range 5)

/-- The number of times the consecutive pair (a, b) occurs in the path. -/
def countEdge (path : List ℤ) (a b : ℕ) : ℕ :=
  (path.zip path.tail).count ((a : ℤ), (b : ℤ))

/-- One in-range pheromone deposit, the pure effect of one pass of the
update_pheromones loop: add ov to cell (i, j) of p. -/
def matBump (p : List (List LD)) (i j : ℕ) (ov : LD) : List (List LD) :=
  p.set i ((p.getD i []).set j (LD.add ((p.getD i []).getD j (LD.fin 0)) ov))

instance : AddCommMonoid LD where
  nsmul := nsmulRec
  add_assoc a b c := by
    show LD.add (LD.add a b) c = LD.add a (LD.add b c)
    cases a <;> cases b <;> cases c <;> simp [LD.add] <;> ring
  zero_add a := by
    show LD.add (LD.fin 0) a = a
    cases a <;> simp [LD.add]
  add_zero a := by
    show LD.add a (LD.fin 0) = a
    cases a <;> simp [LD.add]
  add_comm a b := by
    show LD.add a b = LD.add b a
    cases a <;> cases b <;> simp [LD.add] <;> ring

theorem LD.add_def (a b : LD) : a + b = LD.add a b := rfl

theorem LD.zero_def : (0 : LD) = LD.fin 0 := rfl

theorem optFold_nil {α β : Type} (g : β → α → Option β) (b : β) :
    optFold g b [] = some b := rfl

theorem optFold_cons {α β : Type} (g : β → α → Option β) (b : β) (a : α)
    (l : List α) :
    optFold g b (a :: l) = (g b a).bind (fun b2 => optFold g b2 l) := rfl

theorem optFold_some_of_pure {α β : Type} (g : β → α → Option β)
    (gp : β → α → β) (L : List α) (h : ∀ b a, a ∈ L → g b a = some (gp b a)) :
    ∀ b, optFold g b L = some (L.foldl gp b) := by
  induction L with
  | nil => intro b; rfl
  | cons a l ih =>
    intro b
    rw [optFold_cons, h b a (List.mem_cons_self a l), Option.some_bind,
      List.foldl_cons]
    exact ih (fun b2 a2 ha2 => h b2 a2 (List.mem_cons_of_mem a ha2)) _

theorem optFold_fix {α β : Type} (g : β → α → Option β) (b : β) (L : List α)
    (h : ∀ a ∈ L, g b a = some b) : optFold g b L = some b := by
  induction L with
  | nil => rfl
  | cons a l ih =>
    rw [optFold_cons, h a (List.mem_cons_self a l), Option.some_bind]
    exact ih (fun a2 ha2 => h a2 (List.mem_cons_of_mem a ha2))

theorem optMap_nil {α β : Type} (g : α → Option β) : optMap g [] = some [] := rfl

theorem optMap_cons {α β : Type} (g : α → Option β) (a : α) (l : List α) :
    optMap g (a :: l) =
      (g a).bind (fun b => (optMap g l).map (fun r => b :: r)) := rfl

theorem optMap_some_of {α β : Type} (g : α → Option β) (gp : α → β)
    (L : List α) (h : ∀ a ∈ L, g a = some (gp a)) :
    optMap g L = some (L.map gp) := by
  induction L with
  | nil => rfl
  | cons a l ih =>
    rw [optMap_cons, h a (List.mem_cons_self a l), Option.some_bind,
      ih (fun a2 ha2 => h a2 (List.mem_cons_of_mem a ha2))]
    rfl

theorem get?_eq_some_getD {α : Type} (l : List α) (i : ℕ) (d : α)
    (h : i < l.length) : l.get? i = some (l.getD i d) := by
  rw [List.getD_eq_getElem?_getD, List.get?_eq_getElem?]
  rcases List.getElem?_eq_some_iff.2 ⟨h, rfl⟩ with h2
  rw [h2]
  rfl

theorem normIdx_of_bounds {n : ℕ} {v : ℤ} (h0 : 0 ≤ v) (hn : v < (n : ℤ)) :
    normIdx n v = some v.toNat := by
  simp [normIdx, h0, hn]

theorem normIdx_lt {n : ℕ} {v : ℤ} {k : ℕ} (h : normIdx n v = some k) :
    k < n := by
  unfold normIdx at h
  split at h
  · rename_i h1
    cases h
    omega
  · split at h
    · rename_i h1 h2
      cases h
      omega
    · cases h

theorem optMap_normIdx {n : ℕ} {path : List ℤ}
    (h : ∀ v ∈ path, 0 ≤ v ∧ v < (n : ℤ)) :
    optMap (normIdx n) path = some (path.map Int.toNat) :=
  optMap_some_of _ _ _ (fun v hv => normIdx_of_bounds (h v hv).1 (h v hv).2)

theorem npDelete_inrange {α : Type} {l : List α} {path : List ℤ}
    (h : ∀ v ∈ path, 0 ≤ v ∧ v < (l.length : ℤ)) :
    npDelete l path = some
      (((List.range l.length).filter
          (fun k => decide (¬ k ∈ path.map Int.toNat))).filterMap
        (fun k => l.get? k)) := by
  rw [npDelete, optMap_normIdx h]
  rfl

theorem filterMap_get?_length {α : Type} (l : List α) (K : List ℕ)
    (h : ∀ k ∈ K, k < l.length) :
    (K.filterMap (fun k => l.get? k)).length = K.length := by
  induction K with
  | nil => rfl
  | cons k K ih =>
    rw [List.filterMap_cons,
      get?_eq_some_getD l k (l.getD k (l.getD 0 (l.get ⟨k, h k (List.mem_cons_self k K)⟩)))
        (h k (List.mem_cons_self k K))]
    simp only [List.length_cons]
    rw [ih (fun k2 hk2 => h k2 (List.mem_cons_of_mem k hk2))]

theorem mem_filterMap_get? {α : Type} {l : List α} {K : List ℕ} {v : α}
    (h : v ∈ K.filterMap (fun k => l.get? k)) :
    ∃ k ∈ K, l.get? k = some v := by
  rcases List.mem_filterMap.1 h with ⟨k, hk, hget⟩
  exact ⟨k, hk, hget⟩

theorem filter_range_notmem_length {n : ℕ} {ks : List ℕ} (hnd : ks.Nodup)
    (hlt : ∀ k ∈ ks, k < n) :
    ((List.range n).filter (fun k => decide (¬ k ∈ ks))).length =
      n - ks.length := by
  have hfin : (List.range n).toFinset = Finset.range n := by
    apply Finset.ext
    intro k
    simp [List.mem_toFinset, List.mem_range, Finset.mem_range]
  have hnodup : ((List.range n).filter (fun k => decide (¬ k ∈ ks))).Nodup :=
    (List.nodup_range n).filter _
  rw [← List.toFinset_card_of_nodup hnodup, List.toFinset_filter, hfin]
  have hset : (Finset.range n).filter
      (fun k => (decide (¬ k ∈ ks) : Bool) = true) =
      Finset.range n \ ks.toFinset := by
    rw [Finset.sdiff_eq_filter]
    apply Finset.filter_congr
    intro k _
    simp [List.mem_toFinset]
  rw [hset, Finset.card_sdiff, Finset.card_range,
    List.toFinset_card_of_nodup hnd]
  intro k hk
  rw [List.mem_toFinset] at hk
  exact Finset.mem_range.2 (hlt k hk)

theorem idList_length (n : ℕ) : (idList n).length = n := by
  rw [idList, List.length_map, List.length_range]

theorem idList_get? {n k : ℕ} (h : k < n) :
    (idList n).get? k = some (k : ℤ) := by
  rw [idList, List.get?_map, List.get?_range h]
  rfl

theorem mem_idList {n : ℕ} {v : ℤ} :
    v ∈ idList n ↔ ∃ k : ℕ, k < n ∧ v = (k : ℤ) := by
  simp only [idList, List.mem_map, List.mem_range, Int.ofNat_eq_coe, eq_comm]

theorem map_toNat_nodup {path : List ℤ} (hnd : path.Nodup)
    (h0 : ∀ v ∈ path, 0 ≤ v) : (path.map Int.toNat).Nodup := by
  refine hnd.map_on ?_
  intro a ha b hb hab
  have ha0 := h0 a ha
  have hb0 := h0 b hb
  omega

theorem mem_map_toNat {path : List ℤ} {k : ℕ} (h0 : ∀ v ∈ path, 0 ≤ v) :
    k ∈ path.map Int.toNat ↔ (k : ℤ) ∈ path := by
  constructor
  · intro h
    rcases List.mem_map.1 h with ⟨v, hv, rfl⟩
    have := h0 v hv
    rwa [Int.toNat_of_nonneg this]
  · intro h
    exact List.mem_map.2 ⟨(k : ℤ), h, Int.toNat_natCast k⟩

theorem npDelete_length {α : Type} {l : List α} {path : List ℤ}
    {r : List α} (hr : npDelete l path = some r) (hnd : path.Nodup)
    (h : ∀ v ∈ path, 0 ≤ v ∧ v < (l.length : ℤ)) :
    r.length = l.length - path.length := by
  rw [npDelete_inrange h] at hr
  cases hr
  rw [filterMap_get?_length _ _ (fun k hk =>
    (List.mem_range.1 (List.mem_filter.1 hk).1)),
    filter_range_notmem_length
      (map_toNat_nodup hnd (fun v hv => (h v hv).1))
      (fun k hk => ?_), List.length_map]
  rcases List.mem_map.1 hk with ⟨v, hv, rfl⟩
  have := h v hv
  omega

theorem mem_npDelete {α : Type} {l : List α} {path : List ℤ} {r : List α}
    (hr : npDelete l path = some r)
    (h : ∀ v ∈ path, 0 ≤ v ∧ v < (l.length : ℤ)) {v : α} (hv : v ∈ r) :
    ∃ k : ℕ, k < l.length ∧ ¬ (k : ℤ) ∈ path ∧ l.get? k = some v := by
  rw [npDelete_inrange h] at hr
  cases hr
  rcases mem_filterMap_get? hv with ⟨k, hk, hget⟩
  rcases List.mem_filter.1 hk with ⟨hk1, hk2⟩
  refine ⟨k, List.mem_range.1 hk1, ?_, hget⟩
  intro hmem
  rw [decide_eq_true_iff] at hk2
  exact hk2 ((mem_map_toNat (fun v2 hv2 => (h v2 hv2).1)).2 hmem)

theorem LD.add_pos_of {acc w : LD}
    (hacc : acc.posB = true ∨ acc = LD.fin 0) (hw : w.posB = true) :
    (LD.add acc w).posB = true := by
  cases acc <;> cases w <;>
    simp only [LD.posB, LD.add, decide_eq_true_iff, LD.fin.injEq,
      reduceCtorEq, or_false, false_or] at hacc hw ⊢
  rcases hacc with hacc | hacc
  · linarith
  · cases hacc
    linarith

theorem cumsumFrom_getLast_pos {ws : List LD} (hne : ws ≠ [])
    (hw : ∀ w ∈ ws, w.posB = true) :
    ∀ acc : LD, acc.posB = true ∨ acc = LD.fin 0 →
      ∃ t, (cumsumFrom acc ws).getLast? = some t ∧ t.posB = true := by
  induction ws with
  | nil => exact absurd rfl hne
  | cons w rest ih =>
    intro acc hacc
    have hw0 : w.posB = true := hw w (List.mem_cons_self w rest)
    have hpos : (LD.add acc w).posB = true := LD.add_pos_of hacc hw0
    cases rest with
    | nil => exact ⟨LD.add acc w, rfl, hpos⟩
    | cons w2 rest2 =>
      rcases ih (List.cons_ne_nil w2 rest2)
        (fun w3 hw3 => hw w3 (List.mem_cons_of_mem w hw3))
        (LD.add acc w) (Or.inl hpos) with ⟨t, ht, htpos⟩
      refine ⟨t, ?_, htpos⟩
      rw [cumsumFrom, cumsumFrom, List.getLast?_cons_cons]
      rw [cumsumFrom] at ht
      exact ht

theorem cumsum_getLast_pos {ws : List LD} (hne : ws ≠ [])
    (hw : ∀ w ∈ ws, w.posB = true) :
    ∃ t, (cumsum ws).getLast? = some t ∧ t.posB = true :=
  cumsumFrom_getLast_pos hne hw (LD.fin 0) (Or.inr rfl)

theorem cumsumFrom_getLast_zero {ws : List LD} (hne : ws ≠ [])
    (hw : ∀ w ∈ ws, w = LD.fin 0) :
    ∀ acc : LD, acc = LD.fin 0 →
      (cumsumFrom acc ws).getLast? = some (LD.fin 0) := by
  induction ws with
  | nil => exact absurd rfl hne
  | cons w rest ih =>
    intro acc hacc
    have hw0 : w = LD.fin 0 := hw w (List.mem_cons_self w rest)
    have hzero : LD.add acc w = LD.fin 0 := by
      cases hacc
      cases hw0
      show LD.fin (0 + 0) = LD.fin 0
      norm_num
    cases rest with
    | nil =>
      rw [cumsumFrom, cumsumFrom, hzero]
      rfl
    | cons w2 rest2 =>
      have h2 := ih (List.cons_ne_nil w2 rest2)
        (fun w3 hw3 => hw w3 (List.mem_cons_of_mem w hw3))
        (LD.add acc w) hzero
      rw [cumsumFrom, cumsumFrom, List.getLast?_cons_cons]
      rw [cumsumFrom] at h2
      exact h2

theorem bisectRight_le (a : List LD) (x : LD) :
    ∀ (fuel lo hi : ℕ), hi - lo ≤ fuel → lo ≤ hi →
      bisectRight a x lo hi ≤ hi := by
  intro fuel
  induction fuel with
  | zero =>
    intro lo hi hf hle
    have : lo = hi := by omega
    cases this
    rw [bisectRight]
    simp
  | succ fuel ih =>
    intro lo hi hf hle
    rw [bisectRight]
    split
    · rename_i hlt
      split
      · exact le_trans (ih lo ((lo + hi) / 2) (by omega) (by omega)) (by omega)
      · exact ih ((lo + hi) / 2 + 1) hi (by omega) (by omega)
    · exact hle

theorem random_choices_mem {population : List ℤ} {weights : List LD} {u : ℚ}
    (hlen : weights.length = population.length) (hne : population ≠ [])
    (hw : ∀ w ∈ weights, w.posB = true) :
    ∃ c, random_choices population weights u = some c ∧ c ∈ population := by
  have hwne : weights ≠ [] := by
    intro hnil
    apply hne
    cases hnil
    exact List.length_eq_zero.1 hlen.symm
  rcases cumsum_getLast_pos hwne hw with ⟨t, ht, htpos⟩
  rw [random_choices, if_neg (by rw [hlen]; exact fun h => h rfl), ht]
  have hnotle : LD.leB t (LD.fin 0) = false := by
    cases t with
    | fin q =>
      simp only [LD.posB, decide_eq_true_iff] at htpos
      simp only [LD.leB, decide_eq_false_iff_not, not_le]
      exact htpos
    | inf => simp [LD.posB] at htpos
    | ninf => simp [LD.posB] at htpos
    | nan => simp [LD.posB] at htpos
  simp only [hnotle, Bool.false_eq_true, if_false]
  have hplen : 0 < population.length := List.length_pos.2 hne
  have hidx : bisectRight (cumsum weights) (LD.mulQ t u) 0
      (population.length - 1) < population.length := by
    have := bisectRight_le (cumsum weights) (LD.mulQ t u)
      (population.length - 1) 0 (population.length - 1) (by omega) (by omega)
    omega
  exact ⟨population.getD
      (bisectRight (cumsum weights) (LD.mulQ t u) 0 (population.length - 1))
      (population.get ⟨0, hplen⟩),
    get?_eq_some_getD _ _ _ hidx,
    List.get?_mem (get?_eq_some_getD _ _ _ hidx)⟩

theorem random_choices_zero_total {population : List ℤ} {weights : List LD}
    {u : ℚ} (hlen : weights.length = population.length)
    (hne : weights ≠ []) (hw : ∀ w ∈ weights, w = LD.fin 0) :
    random_choices population weights u = none := by
  have ht : (cumsum weights).getLast? = some (LD.fin 0) :=
    cumsumFrom_getLast_zero hne hw (LD.fin 0) rfl
  rw [random_choices, if_neg (by rw [hlen]; exact fun h => h rfl), ht]
  have hle : LD.leB (LD.fin 0) (LD.fin 0) = true := by
    simp [LD.leB]
  simp only [hle, if_true]

theorem genStep_some {n : ℕ} {pher : List (List LD)} {us : ℕ → ℚ} {i : ℕ}
    {path : List ℤ}
    (hpl : pher.length = n) (hrows : ∀ row ∈ pher, row.length = n)
    (hpos : ∀ row ∈ pher, ∀ w ∈ row, LD.posB w = true)
    (hlen : path.length = i) (hne : path ≠ []) (hnd : path.Nodup)
    (hbd : ∀ v ∈ path, 0 ≤ v ∧ v < (n : ℤ)) (hin : i < n) :
    ∃ c : ℤ, genStep n pher us path i = some (path ++ [c]) ∧
      0 ≤ c ∧ c < (n : ℤ) ∧ ¬ c ∈ path := by
  have hbdid : ∀ v ∈ path, 0 ≤ v ∧ v < (((idList n).length : ℕ) : ℤ) := by
    rw [idList_length]
    exact hbd
  obtain ⟨nn, hnn⟩ : ∃ nn, npDelete (idList n) path = some nn :=
    ⟨_, npDelete_inrange hbdid⟩
  have hnnlen : nn.length = n - i := by
    have h2 := npDelete_length hnn hnd hbdid
    rw [idList_length, hlen] at h2
    exact h2
  have hnnmem : ∀ c ∈ nn, 0 ≤ c ∧ c < (n : ℤ) ∧ ¬ c ∈ path := by
    intro c hc
    rcases mem_npDelete hnn hbdid hc with ⟨k, hk, hknotin, hget⟩
    rw [idList_length] at hk
    rw [idList_get? hk] at hget
    cases hget
    refine ⟨by omega, by omega, hknotin⟩
  have hnne : nn ≠ [] := by
    have : 0 < nn.length := by omega
    exact List.length_pos.1 this
  by_cases hbr : i = n - 1
  · cases nn with
    | nil => exact absurd rfl hnne
    | cons c t =>
      refine ⟨c, ?_, (hnnmem c (List.mem_cons_self c t)).1,
        (hnnmem c (List.mem_cons_self c t)).2.1,
        (hnnmem c (List.mem_cons_self c t)).2.2⟩
      rw [genStep]
      simp only [hnn, Option.bind_eq_bind, Option.some_bind, if_pos hbr,
        List.head?_cons, Option.pure_def]
  · have hlast : path.getLast? = some (path.getLast hne) :=
      List.getLast?_eq_getLast path hne
    have hlastmem : path.getLast hne ∈ path := List.getLast_mem hne
    have hlast0 : 0 ≤ path.getLast hne := (hbd _ hlastmem).1
    have hlastn : path.getLast hne < (n : ℤ) := (hbd _ hlastmem).2
    have hknat : (path.getLast hne).toNat < n := by omega
    have hrowget : pher.get? (path.getLast hne).toNat =
        some (pher.getD (path.getLast hne).toNat []) :=
      get?_eq_some_getD _ _ _ (by rw [hpl]; exact hknat)
    have hrowmem : pher.getD (path.getLast hne).toNat [] ∈ pher :=
      List.get?_mem hrowget
    have hrowlen : (pher.getD (path.getLast hne).toNat []).length = n :=
      hrows _ hrowmem
    have hrow : npIdx pher (path.getLast hne) =
        some (pher.getD (path.getLast hne).toNat []) := by
      rw [npIdx, hpl, normIdx_of_bounds hlast0 hlastn, Option.some_bind]
      exact hrowget
    have hbdrow : ∀ v ∈ path, 0 ≤ v ∧
        v < (((pher.getD (path.getLast hne).toNat []).length : ℕ) : ℤ) := by
      rw [hrowlen]
      exact hbd
    obtain ⟨nph, hnph⟩ : ∃ nph,
        npDelete (pher.getD (path.getLast hne).toNat []) path = some nph :=
      ⟨_, npDelete_inrange hbdrow⟩
    have hnphlen : nph.length = n - i := by
      have h2 := npDelete_length hnph hnd hbdrow
      rw [hrowlen, hlen] at h2
      exact h2
    have hnphpos : ∀ w ∈ nph, LD.posB w = true := by
      intro w hw
      rcases mem_npDelete hnph hbdrow hw with ⟨k, _, _, hget⟩
      exact hpos _ hrowmem w (List.get?_mem hget)
    rcases random_choices_mem (u := us i) (by rw [hnphlen, hnnlen]) hnne
      hnphpos with ⟨c, hrc, hcmem⟩
    refine ⟨c, ?_, (hnnmem c hcmem).1, (hnnmem c hcmem).2.1,
      (hnnmem c hcmem).2.2⟩
    rw [genStep]
    simp only [hnn, hlast, hrow, hnph, hrc, Option.bind_eq_bind,
      Option.some_bind, if_neg hbr, Option.pure_def]

theorem generate_path_loop {n : ℕ} {pher : List (List LD)} {us : ℕ → ℚ}
    (hpl : pher.length = n) (hrows : ∀ row ∈ pher, row.length = n)
    (hpos : ∀ row ∈ pher, ∀ w ∈ row, LD.posB w = true) :
    ∀ (k i : ℕ) (path : List ℤ), i + k = n → 1 ≤ i → path.length = i →
      path ≠ [] → path.Nodup → (∀ v ∈ path, 0 ≤ v ∧ v < (n : ℤ)) →
      ∃ p, optFold (genStep n pher us) path (List.range' i k) = some p ∧
        p.length = n ∧ p.Nodup ∧ (∀ v ∈ p, 0 ≤ v ∧ v < (n : ℤ)) ∧
        p.head? = path.head? := by
  intro k
  induction k with
  | zero =>
    intro i path hik h1 hlen hne hnd hbd
    exact ⟨path, rfl, by omega, hnd, hbd, rfl⟩
  | succ k ih =>
    intro i path hik h1 hlen hne hnd hbd
    rcases genStep_some hpl hrows hpos hlen hne hnd hbd (by omega)
      with ⟨c, hstep, hc0, hcn, hcnotin⟩
    have hrange : List.range' i (k + 1) = i :: List.range' (i + 1) k :=
      List.range'_succ i k 1
    rw [hrange, optFold_cons, hstep, Option.some_bind]
    have hnd2 : (path ++ [c]).Nodup := by
      rw [List.nodup_append]
      exact ⟨hnd, List.nodup_singleton c, by
        intro v hv hvc
        rw [List.mem_singleton] at hvc
        cases hvc
        exact hcnotin hv⟩
    have hbd2 : ∀ v ∈ path ++ [c], 0 ≤ v ∧ v < (n : ℤ) := by
      intro v hv
      rcases List.mem_append.1 hv with hv | hv
      · exact hbd v hv
      · rw [List.mem_singleton] at hv
        cases hv
        exact ⟨hc0, hcn⟩
    rcases ih (i + 1) (path ++ [c]) (by omega) (by omega)
      (by rw [List.length_append, hlen]; rfl)
      (by simp) hnd2 hbd2 with ⟨p, hp, hplen, hpnd, hpbd, hphead⟩
    refine ⟨p, hp, hplen, hpnd, hpbd, ?_⟩
    rw [hphead]
    cases path with
    | nil => exact absurd rfl hne
    | cons a t => rfl

/-- Claim C1: for every n at least 1, every start in [0, n) and every
n-by-n pheromone matrix with all weights positive (so that every selection
step sees positive row weights), generate_path returns a path that is a
permutation of [0, n): it has length n, no repeated values, all values in
range, and its first element is start. -/
theorem c1_generate_path_permutation (n : ℕ) (start : ℤ)
    (pher : List (List LD)) (us : ℕ → ℚ) (hn : 1 ≤ n) (h0 : 0 ≤ start)
    (hsn : start < (n : ℤ)) (hpl : pher.length = n)
    (hrows : ∀ row ∈ pher, row.length = n)
    (hpos : ∀ row ∈ pher, ∀ w ∈ row, LD.posB w = true) :
    ∃ p, generate_path n start pher us = some p ∧ p.length = n ∧
      p.Nodup ∧ (∀ v ∈ p, 0 ≤ v ∧ v < (n : ℤ)) ∧ p.head? = some start := by
  rcases generate_path_loop hpl hrows hpos (n - 1) 1 [start] (by omega)
    (by omega) rfl (List.cons_ne_nil start []) (List.nodup_singleton start)
    (by
      intro v hv
      rw [List.mem_singleton] at hv
      cases hv
      exact ⟨h0, hsn⟩) with ⟨p, hp, hplen, hpnd, hpbd, hphead⟩
  exact ⟨p, hp, hplen, hpnd, hpbd, hphead⟩

/-- Witness for C1 at n = 2, start = 0, an all-ones pheromone matrix. -/
theorem c1_witness :
    ∃ p, generate_path 2 0 [[LD.fin 1, LD.fin 1], [LD.fin 1, LD.fin 1]]
        (fun _ => 0) = some p ∧ p.length = 2 ∧ p.Nodup ∧
      (∀ v ∈ p, 0 ≤ v ∧ v < (2 : ℤ)) ∧ p.head? = some 0 := by
  refine c1_generate_path_permutation 2 0 _ _ (by omega) (by omega)
    (by omega) rfl ?_ ?_
  · intro row hrow
    simp only [List.mem_cons, List.not_mem_nil, or_false] at hrow
    rcases hrow with h | h <;> rw [h] <;> rfl
  · intro row hrow w hw
    simp only [List.mem_cons, List.not_mem_nil, or_false] at hrow
    rcases hrow with h | h <;> cases h <;>
      simp only [List.mem_cons, List.not_mem_nil, or_false] at hw <;>
      rcases hw with h2 | h2 <;> cases h2 <;> norm_num [LD.posB]

theorem replicate_get? {α : Type} {n m : ℕ} (x : α) (h : m < n) :
    (List.replicate n x).get? m = some x := by
  simp [List.get?_eq_getElem?, List.getElem?_replicate, h]

theorem normIdx_oob {n : ℕ} {v : ℤ} (h : (n : ℤ) ≤ v ∨ v < -(n : ℤ)) :
    normIdx n v = none := by
  rw [normIdx, if_neg (by omega), if_neg (by omega)]

/-- Counterexample to claim C9: with n = 1 the construction loop never
runs, so generate_path returns the single-node path even for a start value
far outside [0, n), instead of raising. -/
theorem c9_counterexample :
    generate_path 1 5 [] (fun _ => 0) = some [5] := rfl

/-- Claim C10: when more than one unvisited candidate remains (any step of
a run with n at least 3 has such a step) and every candidate weight is
zero, the weighted sampling rejects the zero total weight and the call
fails; random_choices itself returns an error on any all-zero weight
vector.  The chosen policy is failure, not uniform fallback. -/
theorem c10_zero_weights_rejected :
    (∀ (n : ℕ) (start : ℤ) (us : ℕ → ℚ), 3 ≤ n → 0 ≤ start →
      start < (n : ℤ) → generate_path n start (zerosMat n) us = none) ∧
    (∀ (population : List ℤ) (u : ℚ), population ≠ [] →
      random_choices population
        (List.replicate population.length (LD.fin 0)) u = none) := by
  constructor
  · intro n start us h3 h0 hsn
    have hbd : ∀ v ∈ [start], 0 ≤ v ∧ v < (((idList n).length : ℕ) : ℤ) := by
      intro v hv
      rw [List.mem_singleton] at hv
      cases hv
      rw [idList_length]
      exact ⟨h0, hsn⟩
    obtain ⟨nn, hnn⟩ : ∃ nn, npDelete (idList n) [start] = some nn :=
      ⟨_, npDelete_inrange hbd⟩
    have hnnlen : nn.length = n - 1 := by
      have h2 := npDelete_length hnn (List.nodup_singleton start) hbd
      rw [idList_length] at h2
      exact h2
    have hnne : nn ≠ [] := by
      have : 0 < nn.length := by omega
      exact List.length_pos.1 this
    have hlast : ([start] : List ℤ).getLast? = some start := rfl
    have hrowget : (zerosMat n).get? start.toNat =
        some (List.replicate n (LD.fin 0)) := by
      rw [zerosMat]
      exact replicate_get? _ (by omega)
    have hrow : npIdx (zerosMat n) start =
        some (List.replicate n (LD.fin 0)) := by
      rw [npIdx, zerosMat, List.length_replicate,
        normIdx_of_bounds h0 hsn, Option.some_bind]
      rw [zerosMat] at hrowget
      exact hrowget
    have hbdrow : ∀ v ∈ [start], 0 ≤ v ∧
        v < (((List.replicate n (LD.fin 0)).length : ℕ) : ℤ) := by
      intro v hv
      rw [List.mem_singleton] at hv
      cases hv
      rw [List.length_replicate]
      exact ⟨h0, hsn⟩
    obtain ⟨nph, hnph⟩ : ∃ nph,
        npDelete (List.replicate n (LD.fin 0)) [start] = some nph :=
      ⟨_, npDelete_inrange hbdrow⟩
    have hnphlen : nph.length = n - 1 := by
      have h2 := npDelete_length hnph (List.nodup_singleton start) hbdrow
      rw [List.length_replicate] at h2
      exact h2
    have hnphzero : ∀ w ∈ nph, w = LD.fin 0 := by
      intro w hw
      rcases mem_npDelete hnph hbdrow hw with ⟨k, _, _, hget⟩
      exact List.eq_of_mem_replicate (List.get?_mem hget)
    have hnphne : nph ≠ [] := by
      have : 0 < nph.length := by omega
      exact List.length_pos.1 this
    have hrc : random_choices nn nph (us 1) = none :=
      random_choices_zero_total (by omega) hnphne hnphzero
    obtain ⟨k, hk⟩ : ∃ k, n - 1 = k + 1 := ⟨n - 2, by omega⟩
    rw [generate_path, hk, List.range'_succ, optFold_cons, genStep]
    simp only [hnn, hlast, hrow, hnph, hrc, Option.bind_eq_bind,
      Option.some_bind, if_neg (by omega : ¬ (1 : ℕ) = n - 1),
      Option.pure_def]
    rfl
  · intro population u hne
    refine random_choices_zero_total (List.length_replicate _ _) ?_
      (fun w hw => List.eq_of_mem_replicate hw)
    intro hnil
    have := congrArg List.length hnil
    rw [List.length_replicate] at this
    exact hne (List.length_eq_zero.1 this)

/-- Witness for C10 at n = 3 with the all-zero pheromone matrix, and for
the sampling-level statement at a three-element population. -/
theorem c10_witness :
    generate_path 3 0 (zerosMat 3) (fun _ => 0) = none ∧
    random_choices [5, 7, 9] (List.replicate 3 (LD.fin 0)) (1/2) = none :=
  ⟨c10_zero_weights_rejected.1 3 0 (fun _ => 0) (by omega) (by omega)
      (by omega),
    c10_zero_weights_rejected.2 [5, 7, 9] (1/2) (by
      intro h
      cases h)⟩

theorem foldl_add_eq_sum (t : ℕ → ℚ) :
    ∀ (L : List ℕ) (a0 : ℚ),
      L.foldl (fun a x => a + t x) a0 = a0 + (L.map t).sum := by
  intro L
  induction L with
  | nil =>
    intro a0
    simp
  | cons x L ih =>
    intro a0
    rw [List.foldl_cons, ih, List.map_cons, List.sum_cons]
    ring

theorem range_map_sum (t : ℕ → ℚ) (N : ℕ) :
    ((List.range N).map t).sum = ∑ i in Finset.range N, t i := by
  induction N with
  | zero => rfl
  | succ N ih =>
    rw [List.range_succ, Finset.sum_range_succ, List.map_append,
      List.sum_append, ih, List.map_singleton, List.sum_singleton]

/-- Claim C2: on a permutation path of length N with N-by-N matrices d and
f, get_fitness is the QAP objective: the sum over all ordered pairs (i, j)
of d[i][j] * f[path[i]][path[j]], d indexed by position in the path and f
by the facility value stored at that position. -/
theorem c2_get_fitness_qap_sum (path : List ℤ) (d f : List (List ℚ)) (N : ℕ)
    (hperm : path.Perm (idList N))
    (hd : d.length = N) (hdr : ∀ r ∈ d, r.length = N)
    (hf : f.length = N) (hfr : ∀ r ∈ f, r.length = N) :
    get_fitness path d f =
      some (∑ i in Finset.range N, ∑ j in Finset.range N,
        entryQ d i j *
          entryQ f (path.getD i 0).toNat (path.getD j 0).toNat) := by
  have hplen : path.length = N := by
    rw [hperm.length_eq, idList_length]
  have hmem : ∀ v ∈ path, 0 ≤ v ∧ v < (N : ℤ) := by
    intro v hv
    rcases mem_idList.1 (hperm.mem_iff.1 hv) with ⟨k, hk, rfl⟩
    constructor
    · exact Int.natCast_nonneg k
    · exact_mod_cast hk
  have hstep : ∀ (i : ℕ), i ∈ List.range N → ∀ (acc : ℚ) (j : ℕ),
      j ∈ List.range N →
      (do
          let di ← d.get? i
          let dij ← di.get? j
          let pi ← path.get? i
          let pj ← path.get? j
          let frow ← npIdx f pi
          let fij ← npIdx frow pj
          pure (acc + dij * fij)) =
        some (acc + entryQ d i j *
          entryQ f (path.getD i 0).toNat (path.getD j 0).toNat) := by
    intro i hi acc j hj
    rw [List.mem_range] at hi hj
    have hdget : d.get? i = some (d.getD i []) :=
      get?_eq_some_getD _ _ _ (by omega)
    have hdrow : (d.getD i []).get? j = some ((d.getD i []).getD j 0) :=
      get?_eq_some_getD _ _ _
        (by rw [hdr (d.getD i []) (List.get?_mem hdget)]; exact hj)
    have hpi : path.get? i = some (path.getD i 0) :=
      get?_eq_some_getD _ _ _ (by omega)
    have hpj : path.get? j = some (path.getD j 0) :=
      get?_eq_some_getD _ _ _ (by omega)
    have hpib := hmem _ (List.get?_mem hpi)
    have hpjb := hmem _ (List.get?_mem hpj)
    have hfget : f.get? (path.getD i 0).toNat =
        some (f.getD (path.getD i 0).toNat []) :=
      get?_eq_some_getD _ _ _ (by rw [hf]; omega)
    have hfrow : npIdx f (path.getD i 0) =
        some (f.getD (path.getD i 0).toNat []) := by
      rw [npIdx, hf, normIdx_of_bounds hpib.1 hpib.2, Option.some_bind]
      exact hfget
    have hfrowlen : (f.getD (path.getD i 0).toNat []).length = N :=
      hfr _ (List.get?_mem hfget)
    have hfij : npIdx (f.getD (path.getD i 0).toNat [])
        (path.getD j 0) = some ((f.getD (path.getD i 0).toNat []).getD
          (path.getD j 0).toNat 0) := by
      rw [npIdx, hfrowlen, normIdx_of_bounds hpjb.1 hpjb.2, Option.some_bind]
      exact get?_eq_some_getD _ _ _ (by rw [hfrowlen]; omega)
    rw [hdget]
    simp only [Option.bind_eq_bind, Option.some_bind, Option.pure_def]
    rw [hdrow]
    simp only [Option.some_bind]
    rw [hpi]
    simp only [Option.some_bind]
    rw [hpj]
    simp only [Option.some_bind]
    rw [hfrow]
    simp only [Option.some_bind]
    rw [hfij]
    simp only [Option.some_bind]
    rw [entryQ, entryQ]
  rw [get_fitness, hplen]
  rw [optFold_some_of_pure _
    (fun acc i => acc + ∑ j in Finset.range N,
      entryQ d i j * entryQ f (path.getD i 0).toNat (path.getD j 0).toNat)
    (List.range N) ?_ 0]
  · rw [foldl_add_eq_sum
      (fun i => ∑ j in Finset.range N,
        entryQ d i j * entryQ f (path.getD i 0).toNat (path.getD j 0).toNat)
      (List.range N) 0, range_map_sum, zero_add]
  · intro acc i hi
    rw [optFold_some_of_pure _
      (fun acc j => acc + entryQ d i j *
        entryQ f (path.getD i 0).toNat (path.getD j 0).toNat)
      (List.range N) (fun acc2 j hj => hstep i hi acc2 j hj) acc]
    rw [foldl_add_eq_sum
      (fun j => entryQ d i j *
        entryQ f (path.getD i 0).toNat (path.getD j 0).toNat)
      (List.range N) acc, range_map_sum]

/-- Witness for C2 at N = 2 with path [1, 0]. -/
theorem c2_witness :
    get_fitness [1, 0] [[1, 2], [3, 4]] [[5, 6], [7, 8]] =
      some (∑ i in Finset.range 2, ∑ j in Finset.range 2,
        entryQ [[1, 2], [3, 4]] i j *
          entryQ [[5, 6], [7, 8]] (([1, 0] : List ℤ).getD i 0).toNat
            (([1, 0] : List ℤ).getD j 0).toNat) := by
  refine c2_get_fitness_qap_sum [1, 0] _ _ 2 ?_ rfl ?_ rfl ?_
  · have : idList 2 = [0, 1] := rfl
    rw [this]
    exact List.Perm.swap 0 1 []
  · intro r hr
    simp only [List.mem_cons, List.not_mem_nil, or_false] at hr
    rcases hr with h | h <;> rw [h] <;> rfl
  · intro r hr
    simp only [List.mem_cons, List.not_mem_nil, or_false] at hr
    rcases hr with h | h <;> rw [h] <;> rfl

theorem getD_set_self {α : Type} {l : List α} {i : ℕ} (x : α) (d : α)
    (h : i < l.length) : (l.set i x).getD i d = x := by
  rw [List.getD_eq_getElem?_getD, List.getElem?_set_self', List.getElem?_eq_getElem h]
  rfl

theorem getD_set_ne {α : Type} {l : List α} {i a : ℕ} (x : α) (d : α)
    (h : i ≠ a) : (l.set i x).getD a d = l.getD a d := by
  rw [List.getD_eq_getElem?_getD, List.getElem?_set_ne h,
    ← List.getD_eq_getElem?_getD]

theorem getD_mem {α : Type} {l : List α} {i : ℕ} (d : α) (h : i < l.length) :
    l.getD i d ∈ l :=
  List.get?_mem (get?_eq_some_getD l i d h)

theorem isMat_matBump {n : ℕ} {p : List (List LD)} {i j : ℕ} {ov : LD}
    (hp : isMat n p) (hi : i < n) : isMat n (matBump p i j ov) := by
  constructor
  · rw [matBump, List.length_set]
    exact hp.1
  · intro r hr
    rcases List.mem_or_eq_of_mem_set hr with hr | hr
    · exact hp.2 r hr
    · rw [hr, List.length_set]
      exact hp.2 _ (getD_mem _ (by rw [hp.1]; exact hi))

theorem entryLD_matBump {n : ℕ} {p : List (List LD)} {i j a b : ℕ} {ov : LD}
    (hp : isMat n p) (hi : i < n) (hj : j < n) (ha : a < n) (hb : b < n) :
    entryLD (matBump p i j ov) a b =
      if a = i ∧ b = j then LD.add (entryLD p a b) ov else entryLD p a b := by
  have hplen : p.length = n := hp.1
  by_cases hai : a = i
  · rw [hai]
    have hrowlen : (p.getD i []).length = n :=
      hp.2 _ (getD_mem _ (by omega))
    rw [matBump, entryLD, getD_set_self _ _ (by omega)]
    by_cases hbj : b = j
    · rw [hbj, getD_set_self _ _ (by omega), if_pos ⟨rfl, rfl⟩]
      rfl
    · rw [getD_set_ne _ _ (fun h => hbj h.symm),
        if_neg (fun h => hbj h.2)]
      rfl
  · rw [matBump, entryLD, getD_set_ne _ _ (fun h => hai h.symm),
      if_neg (fun h => hai h.1)]
    rfl

theorem range_map_pairs :
    ∀ (l : List ℤ), (List.range (l.length - 1)).map
        (fun x => (l.getD x 0, l.getD (x + 1) 0)) = l.zip l.tail := by
  intro l
  induction l with
  | nil => rfl
  | cons a t ih =>
    cases t with
    | nil => rfl
    | cons b t2 =>
      have hlen : (a :: b :: t2).length - 1 = ((b :: t2).length - 1) + 1 := by
        simp
      rw [hlen, List.range_succ_eq_map, List.map_cons, List.map_map]
      have hmap : ((List.range ((b :: t2).length - 1)).map
          ((fun x => ((a :: b :: t2).getD x 0, (a :: b :: t2).getD (x + 1) 0))
            ∘ (· + 1))) =
          (List.range ((b :: t2).length - 1)).map
            (fun x => ((b :: t2).getD x 0, (b :: t2).getD (x + 1) 0)) := by
        apply List.map_congr_left
        intro x _
        rfl
      rw [hmap, ih]
      rfl

theorem optFold_map {α β γ : Type} (G : β → γ → Option β) (h : α → γ) :
    ∀ (L : List α) (b : β),
      optFold (fun p x => G p (h x)) b L = optFold G b (L.map h) := by
  intro L
  induction L with
  | nil => intro b; rfl
  | cons a l ih =>
    intro b
    rw [List.map_cons, optFold_cons, optFold_cons]
    cases G b (h a) with
    | none => rfl
    | some b2 =>
      rw [Option.some_bind, Option.some_bind]
      exact ih b2

theorem pairStep_eq_matBump {n : ℕ} {p : List (List LD)} {ov : LD}
    {v1 v2 : ℤ} (hp : isMat n p) (h1 : 0 ≤ v1 ∧ v1 < (n : ℤ))
    (h2 : 0 ≤ v2 ∧ v2 < (n : ℤ)) :
    (do
        let i ← normIdx p.length v1
        let row ← p.get? i
        let j ← normIdx row.length v2
        let v ← row.get? j
        pure (p.set i (row.set j (LD.add v ov)))) =
      some (matBump p v1.toNat v2.toNat ov) := by
  have hplen : p.length = n := hp.1
  have hrowget : p.get? v1.toNat = some (p.getD v1.toNat []) :=
    get?_eq_some_getD _ _ _ (by omega)
  have hrowlen : (p.getD v1.toNat []).length = n :=
    hp.2 _ (List.get?_mem hrowget)
  have hvget : (p.getD v1.toNat []).get? v2.toNat =
      some ((p.getD v1.toNat []).getD v2.toNat (LD.fin 0)) :=
    get?_eq_some_getD _ _ _ (by omega)
  rw [hplen, normIdx_of_bounds h1.1 h1.2]
  simp only [Option.bind_eq_bind, Option.some_bind, Option.pure_def]
  rw [hrowget]
  simp only [Option.some_bind]
  rw [hrowlen, normIdx_of_bounds h2.1 h2.2]
  simp only [Option.some_bind]
  rw [hvget]
  simp only [Option.some_bind]
  rw [matBump]

theorem optFold_pairs_eq_foldl {n : ℕ} {ov : LD} :
    ∀ (prs : List (ℤ × ℤ)) (p : List (List LD)), isMat n p →
      (∀ ab ∈ prs, (0 ≤ ab.1 ∧ ab.1 < (n : ℤ)) ∧
        (0 ≤ ab.2 ∧ ab.2 < (n : ℤ))) →
      optFold (fun p ab => do
          let i ← normIdx p.length (ab : ℤ × ℤ).1
          let row ← p.get? i
          let j ← normIdx row.length ab.2
          let v ← row.get? j
          pure (p.set i (row.set j (LD.add v ov)))) p prs =
        some (prs.foldl
          (fun p ab => matBump p ab.1.toNat ab.2.toNat ov) p) := by
  intro prs
  induction prs with
  | nil => intro p _ _; rfl
  | cons ab prs ih =>
    intro p hp hbd
    rw [optFold_cons,
      pairStep_eq_matBump hp (hbd ab (List.mem_cons_self ab prs)).1
        (hbd ab (List.mem_cons_self ab prs)).2,
      Option.some_bind, List.foldl_cons]
    exact ih _ (isMat_matBump hp (by
        have := (hbd ab (List.mem_cons_self ab prs)).1
        omega))
      (fun ab2 h2 => hbd ab2 (List.mem_cons_of_mem ab h2))

theorem entryLD_foldl_matBump {n : ℕ} {ov : LD} :
    ∀ (prs : List (ℤ × ℤ)) (p : List (List LD)), isMat n p →
      (∀ ab ∈ prs, (0 ≤ ab.1 ∧ ab.1 < (n : ℤ)) ∧
        (0 ≤ ab.2 ∧ ab.2 < (n : ℤ))) →
      ∀ a b : ℕ, a < n → b < n →
      entryLD (prs.foldl (fun p ab => matBump p ab.1.toNat ab.2.toNat ov) p)
          a b =
        prs.count ((a : ℤ), (b : ℤ)) • ov + entryLD p a b := by
  intro prs
  induction prs with
  | nil =>
    intro p _ _ a b _ _
    rw [List.foldl_nil, List.count_nil, zero_nsmul, zero_add]
  | cons ab prs ih =>
    intro p hp hbd a b ha hb
    have hab := hbd ab (List.mem_cons_self ab prs)
    have hi : ab.1.toNat < n := by
      have := hab.1
      omega
    have hj : ab.2.toNat < n := by
      have := hab.2
      omega
    rw [List.foldl_cons,
      ih _ (isMat_matBump hp hi)
        (fun ab2 h2 => hbd ab2 (List.mem_cons_of_mem ab h2)) a b ha hb,
      entryLD_matBump hp hi hj ha hb, List.count_cons]
    by_cases heq : ab = ((a : ℤ), (b : ℤ))
    · have hcond : a = ab.1.toNat ∧ b = ab.2.toNat := by
        rw [heq]
        constructor
        · rw [Int.toNat_natCast]
        · rw [Int.toNat_natCast]
      rw [if_pos hcond, if_pos (by rw [heq]; exact beq_self_eq_true _),
        succ_nsmul, ← LD.add_def]
      abel
    · have hcond : ¬ (a = ab.1.toNat ∧ b = ab.2.toNat) := by
        intro hc
        apply heq
        have h1 := hab.1.1
        have h2 := hab.2.1
        have : ab = (ab.1, ab.2) := rfl
        rw [this]
        rcases hc with ⟨hc1, hc2⟩
        have e1 : ab.1 = (a : ℤ) := by omega
        have e2 : ab.2 = (b : ℤ) := by omega
        rw [e1, e2]
      rw [if_neg hcond, if_neg (by
        intro hbe
        exact heq (eq_of_beq hbe)), add_zero]

theorem getD_replicate {α : Type} {n a : ℕ} (x d : α) :
    (List.replicate n x).getD a d = if a < n then x else d := by
  rw [List.getD_eq_getElem?_getD, List.getElem?_replicate]
  by_cases h : a < n
  · rw [if_pos h, if_pos h]
    rfl
  · rw [if_neg h, if_neg h]
    rfl

theorem entry_zerosMat (n a b : ℕ) : entryLD (zerosMat n) a b = LD.fin 0 := by
  rw [entryLD, zerosMat, getD_replicate]
  by_cases h : a < n
  · rw [if_pos h, getD_replicate]
    by_cases h2 : b < n
    · rw [if_pos h2]
    · rw [if_neg h2]
  · rw [if_neg h]
    rfl

theorem isMat_zerosMat (n : ℕ) : isMat n (zerosMat n) := by
  constructor
  · rw [zerosMat, List.length_replicate]
  · intro r hr
    rw [zerosMat] at hr
    rw [List.eq_of_mem_replicate hr, List.length_replicate]

theorem isMat_foldl_matBump {n : ℕ} {ov : LD} :
    ∀ (prs : List (ℤ × ℤ)) (p : List (List LD)), isMat n p →
      (∀ ab ∈ prs, (0 ≤ ab.1 ∧ ab.1 < (n : ℤ)) ∧
        (0 ≤ ab.2 ∧ ab.2 < (n : ℤ))) →
      isMat n (prs.foldl (fun p ab => matBump p ab.1.toNat ab.2.toNat ov) p) := by
  intro prs
  induction prs with
  | nil => intro p hp _; exact hp
  | cons ab prs ih =>
    intro p hp hbd
    rw [List.foldl_cons]
    exact ih _ (isMat_matBump hp (by
        have := (hbd ab (List.mem_cons_self ab prs)).1
        omega))
      (fun ab2 h2 => hbd ab2 (List.mem_cons_of_mem ab h2))

theorem sum_count_pairs {n : ℕ} :
    ∀ (prs : List (ℤ × ℤ)),
      (∀ v ∈ prs, ∃ a b : ℕ, a < n ∧ b < n ∧ v = ((a : ℤ), (b : ℤ))) →
      ∑ a in Finset.range n, ∑ b in Finset.range n,
        prs.count ((a : ℤ), (b : ℤ)) = prs.length := by
  intro prs
  induction prs with
  | nil =>
    intro _
    simp
  | cons v prs ih =>
    intro hv
    rcases hv v (List.mem_cons_self v prs) with ⟨a0, b0, ha0, hb0, rfl⟩
    have hcount : ∀ a b : ℕ,
        List.count ((a : ℤ), (b : ℤ)) (((a0 : ℤ), (b0 : ℤ)) :: prs) =
          List.count ((a : ℤ), (b : ℤ)) prs +
            if a0 = a ∧ b0 = b then 1 else 0 := by
      intro a b
      rw [List.count_cons]
      congr 1
      by_cases h : a0 = a ∧ b0 = b
      · rw [if_pos (by
          have : ((a0 : ℤ), (b0 : ℤ)) = ((a : ℤ), (b : ℤ)) := by
            rw [h.1, h.2]
          rw [this]
          exact beq_self_eq_true _), if_pos h]
      · rw [if_neg (fun hbe => ?_), if_neg h]
        have hpe := eq_of_beq hbe
        apply h
        have h1 : (a0 : ℤ) = (a : ℤ) := congrArg Prod.fst hpe
        have h2 : (b0 : ℤ) = (b : ℤ) := congrArg Prod.snd hpe
        exact ⟨by omega, by omega⟩
    have hsplit : ∑ a in Finset.range n, ∑ b in Finset.range n,
        List.count ((a : ℤ), (b : ℤ)) (((a0 : ℤ), (b0 : ℤ)) :: prs) =
        (∑ a in Finset.range n, ∑ b in Finset.range n,
          List.count ((a : ℤ), (b : ℤ)) prs) +
        ∑ a in Finset.range n, ∑ b in Finset.range n,
          (if a0 = a ∧ b0 = b then 1 else 0) := by
      rw [← Finset.sum_add_distrib]
      apply Finset.sum_congr rfl
      intro a _
      rw [← Finset.sum_add_distrib]
      apply Finset.sum_congr rfl
      intro b _
      exact hcount a b
    have hinner : ∀ a : ℕ, (∑ b in Finset.range n,
        if a0 = a ∧ b0 = b then 1 else 0) = if a0 = a then 1 else 0 := by
      intro a
      by_cases h : a0 = a
      · rw [if_pos h]
        have : ∀ b : ℕ, (if a0 = a ∧ b0 = b then 1 else 0) =
            (if b0 = b then (1 : ℕ) else 0) := by
          intro b
          by_cases h2 : b0 = b
          · rw [if_pos ⟨h, h2⟩, if_pos h2]
          · rw [if_neg (fun hc => h2 hc.2), if_neg h2]
        rw [Finset.sum_congr rfl (fun b _ => this b),
          Finset.sum_ite_eq (Finset.range n) b0 (fun _ => 1),
          if_pos (Finset.mem_range.2 hb0)]
      · rw [if_neg h]
        apply Finset.sum_eq_zero
        intro b _
        rw [if_neg (fun hc => h hc.1)]
    rw [hsplit, ih (fun v2 h2 => hv v2 (List.mem_cons_of_mem _ h2)),
      Finset.sum_congr rfl (fun a _ => hinner a),
      Finset.sum_ite_eq (Finset.range n) a0 (fun _ => 1),
      if_pos (Finset.mem_range.2 ha0), List.length_cons]

theorem update_pheromones_spec {ov : LD} {path : List ℤ} {n : ℕ}
    (hbd : ∀ v ∈ path, 0 ≤ v ∧ v < (n : ℤ)) :
    ∃ U, update_pheromones ov path n = some U ∧ isMat n U ∧
      ∀ a b : ℕ, a < n → b < n →
        entryLD U a b = countEdge path a b • ov := by
  have hprs : ∀ ab ∈ path.zip path.tail,
      (0 ≤ ab.1 ∧ ab.1 < (n : ℤ)) ∧ (0 ≤ ab.2 ∧ ab.2 < (n : ℤ)) := by
    intro ab hab
    cases ab with
    | mk v1 v2 =>
      rcases List.of_mem_zip hab with ⟨h1, h2⟩
      exact ⟨hbd v1 h1, hbd v2 (List.mem_of_mem_tail h2)⟩
  have heq : update_pheromones ov path n =
      optFold (fun p (ab : ℤ × ℤ) => do
          let i ← normIdx p.length ab.1
          let row ← p.get? i
          let j ← normIdx row.length ab.2
          let v ← row.get? j
          pure (p.set i (row.set j (LD.add v ov))))
        (zerosMat n) (path.zip path.tail) := by
    rw [update_pheromones, ← range_map_pairs path, ← optFold_map]
  rw [heq, optFold_pairs_eq_foldl _ _ (isMat_zerosMat n) hprs]
  refine ⟨_, rfl, isMat_foldl_matBump _ _ (isMat_zerosMat n) hprs, ?_⟩
  intro a b ha hb
  rw [entryLD_foldl_matBump _ _ (isMat_zerosMat n) hprs a b ha hb,
    entry_zerosMat, ← LD.zero_def, add_zero]
  rfl

/-- Claim C4: for every path with entries in [0, n), update_pheromones
returns the n-by-n matrix that is all-zero except that oneover is added at
cell (path[x], path[x+1]) for every consecutive pair, accumulating by summation
(each cell holds its edge multiplicity times oneover); on a permutation
path of [0, n) the entries sum to (n - 1) copies of oneover. -/
theorem c4_update_pheromones_deposit (oneover : LD) (path : List ℤ) (n : ℕ)
    (hbd : ∀ v ∈ path, 0 ≤ v ∧ v < (n : ℤ)) :
    ∃ U, update_pheromones oneover path n = some U ∧ isMat n U ∧
      (∀ a b : ℕ, a < n → b < n →
        entryLD U a b = countEdge path a b • oneover) ∧
      (path.Perm (idList n) →
        ∑ a in Finset.range n, ∑ b in Finset.range n, entryLD U a b =
          (n - 1) • oneover) := by
  rcases update_pheromones_spec hbd with ⟨U, hU, hmat, hentry⟩
  refine ⟨U, hU, hmat, hentry, ?_⟩
  intro hperm
  have hplen : path.length = n := by
    rw [hperm.length_eq, idList_length]
  have hpairs : ∀ v ∈ path.zip path.tail,
      ∃ a b : ℕ, a < n ∧ b < n ∧ v = ((a : ℤ), (b : ℤ)) := by
    intro v hv
    cases v with
    | mk v1 v2 =>
      rcases List.of_mem_zip hv with ⟨h1, h2⟩
      have hb1 := hbd v1 h1
      have hb2 := hbd v2 (List.mem_of_mem_tail h2)
      refine ⟨v1.toNat, v2.toNat, by omega, by omega, ?_⟩
      rw [Int.toNat_of_nonneg hb1.1, Int.toNat_of_nonneg hb2.1]
  have hlen : (path.zip path.tail).length = n - 1 := by
    rw [List.length_zip, List.length_tail, hplen]
    omega
  calc ∑ a in Finset.range n, ∑ b in Finset.range n, entryLD U a b
      = ∑ a in Finset.range n, ∑ b in Finset.range n,
          countEdge path a b • oneover := by
        apply Finset.sum_congr rfl
        intro a ha
        apply Finset.sum_congr rfl
        intro b hb
        exact hentry a b (Finset.mem_range.1 ha) (Finset.mem_range.1 hb)
    _ = (∑ a in Finset.range n, ∑ b in Finset.range n,
          countEdge path a b) • oneover := by
        rw [Finset.sum_smul]
        apply Finset.sum_congr rfl
        intro a _
        rw [Finset.sum_smul]
    _ = (n - 1) • oneover := by
        rw [show ∑ a in Finset.range n, ∑ b in Finset.range n,
            countEdge path a b = n - 1 from ?_]
        rw [← hlen]
        exact sum_count_pairs (path.zip path.tail) hpairs

/-- Witness for C4 at oneover = 1, the permutation path [0, 1], n = 2. -/
theorem c4_witness :
    ∃ U, update_pheromones (LD.fin 1) [0, 1] 2 = some U ∧ isMat 2 U ∧
      (∀ a b : ℕ, a < 2 → b < 2 →
        entryLD U a b = countEdge [0, 1] a b • LD.fin 1) ∧
      (([0, 1] : List ℤ).Perm (idList 2) →
        ∑ a in Finset.range 2, ∑ b in Finset.range 2, entryLD U a b =
          (2 - 1) • LD.fin 1) := by
  apply c4_update_pheromones_deposit (LD.fin 1) [0, 1] 2
  intro v hv
  simp only [List.mem_cons, List.not_mem_nil, or_false] at hv
  rcases hv with h | h <;> rw [h] <;> omega

theorem iterOnce_eq {cfg : Cfg} {s s2 : RunState} {x : ℕ}
    (h : iterOnce cfg s x = some s2) :
    ∃ r, optFold (antBody cfg s.pher x) (0, zerosMat cfg.n, s.best)
        (List.range cfg.m) = some r ∧
      s2 = ⟨matScaleL (matAddL s.pher r.2.1) cfg.e, r.2.2,
        s.series ++ [r.1 / (cfg.m : ℚ)]⟩ := by
  rw [iterOnce] at h
  cases hfold : optFold (antBody cfg s.pher x) (0, zerosMat cfg.n, s.best)
      (List.range cfg.m) with
  | none =>
    rw [hfold] at h
    cases h
  | some r =>
    rw [hfold] at h
    simp only [Option.bind_eq_bind, Option.some_bind, Option.pure_def,
      Option.some.injEq] at h
    exact ⟨r, rfl, h.symm⟩

theorem runFrom_series_length {cfg : Cfg} :
    ∀ (L : List ℕ) (s s2 : RunState), runFrom cfg s L = some s2 →
      s2.series.length = s.series.length + L.length := by
  intro L
  induction L with
  | nil =>
    intro s s2 h
    cases h
    rfl
  | cons x xs ih =>
    intro s s2 h
    rw [runFrom, optFold_cons] at h
    cases hstep : iterOnce cfg s x with
    | none =>
      rw [hstep] at h
      cases h
    | some s1 =>
      rw [hstep, Option.some_bind] at h
      rcases iterOnce_eq hstep with ⟨r, _, hs1⟩
      have := ih s1 s2 h
      rw [this, hs1]
      simp only [List.length_append, List.length_cons, List.length_nil,
        List.length_cons]
      omega

theorem main_run_series_length {cfg : Cfg} {series : List ℚ} {best : LD}
    (h : main_run cfg = some (series, best)) :
    series.length = 10000 / cfg.m := by
  rw [main_run] at h
  by_cases hm : cfg.m = 0
  · rw [if_pos hm] at h
    cases h
  rw [if_neg hm] at h
  by_cases hn : cfg.n = 0
  · rw [if_pos hn] at h
    cases h
  rw [if_neg hn] at h
  cases hrun : runFrom cfg (initState cfg) (List.range (10000 / cfg.m)) with
  | none =>
    rw [hrun] at h
    cases h
  | some s2 =>
    rw [hrun] at h
    simp only [Option.map_some', Option.some.injEq, Prod.mk.injEq] at h
    have hlen := runFrom_series_length _ _ _ hrun
    rw [initState] at hlen
    simp only [List.length_nil, List.length_range, Nat.zero_add] at hlen
    rw [← h.1, hlen]

theorem experiments_fold_lengths {m : ℕ} {e : ℚ} {n : ℕ}
    {d f : List (List ℚ)} {pherR : ℕ → List (List LD)} {startR : ℕ → ℕ}
    {usR : ℕ → ℕ → ℕ → ℕ → ℚ} :
    ∀ (L : List ℕ) (acc r : List (List ℚ) × List LD),
      optFold (fun acc x => do
          let rr ← main_run ⟨m, e, n, d, f, pherR x, startR x, usR x⟩
          pure (acc.1 ++ [rr.1], acc.2 ++ [rr.2])) acc L = some r →
      r.1.length = acc.1.length + L.length ∧
      r.2.length = acc.2.length + L.length ∧
      (∀ s ∈ r.1, s ∈ acc.1 ∨ s.length = 10000 / m) := by
  intro L
  induction L with
  | nil =>
    intro acc r h
    cases h
    exact ⟨rfl, rfl, fun s hs => Or.inl hs⟩
  | cons x xs ih =>
    intro acc r h
    rw [optFold_cons] at h
    cases hrun : main_run ⟨m, e, n, d, f, pherR x, startR x, usR x⟩ with
    | none =>
      rw [hrun] at h
      cases h
    | some rr =>
      rw [hrun] at h
      simp only [Option.bind_eq_bind, Option.some_bind, Option.pure_def] at h
      rcases ih _ _ h with ⟨h1, h2, h3⟩
      refine ⟨?_, ?_, ?_⟩
      · rw [h1]
        simp only [List.length_append, List.length_cons, List.length_nil]
        omega
      · rw [h2]
        simp only [List.length_append, List.length_cons, List.length_nil]
        omega
      · intro s hs
        rcases h3 s hs with hs2 | hs2
        · rcases List.mem_append.1 hs2 with hs3 | hs3
          · exact Or.inl hs3
          · rw [List.mem_singleton] at hs3
            cases hs3
            exact Or.inr (main_run_series_length hrun)
        · exact Or.inr hs2

/-- Counterexample to claim C3: with colony size m = 10001 the code
computes iterations = int(10000/m) = 0 (floor, not ceiling), so a completed
run returns an empty mean-fitness series although ceil(10000/10001) = 1. -/
theorem c3_counterexample :
    main_run ⟨10001, 1, 1, [[1]], [[1]], [[LD.fin 0]], 0,
        fun _ _ _ => 0⟩ = some ([], LD.inf) ∧
    ([] : List ℚ).length ≠ (10000 + 10001 - 1) / 10001 := by
  constructor
  · rfl
  · decide

/-- Claim C3 (amended): every completed run of main with colony size m
returns a mean-fitness series with exactly floor(10000/m) entries (the code
computes int(10000/m), which truncates), and experiments produces exactly 5
such series and exactly 5 best-fitness scalars. -/
theorem c3_iteration_and_replicate_counts :
    (∀ (cfg : Cfg) (series : List ℚ) (best : LD),
      main_run cfg = some (series, best) → series.length = 10000 / cfg.m) ∧
    (∀ (m : ℕ) (e : ℚ) (n : ℕ) (d f : List (List ℚ))
      (pherR : ℕ → List (List LD)) (startR : ℕ → ℕ)
      (usR : ℕ → ℕ → ℕ → ℕ → ℚ) (biglist : List (List ℚ))
      (bestlist : List LD),
      experiments m e n d f pherR startR usR = some (biglist, bestlist) →
      biglist.length = 5 ∧ bestlist.length = 5 ∧
        ∀ s ∈ biglist, s.length = 10000 / m) := by
  constructor
  · intro cfg series best h
    exact main_run_series_length h
  · intro m e n d f pherR startR usR biglist bestlist h
    rw [experiments] at h
    rcases experiments_fold_lengths _ _ _ h with ⟨h1, h2, h3⟩
    refine ⟨h1, h2, ?_⟩
    intro s hs
    rcases h3 s hs with hs2 | hs2
    · cases hs2
    · exact hs2

/-- Witness for the amended C3 at m = 10001: five replicate runs, each
with an empty series (floor(10000/10001) = 0) and best fitness +inf. -/
theorem c3_witness :
    ([[], [], [], [], []] : List (List ℚ)).length = 5 ∧
    ([LD.inf, LD.inf, LD.inf, LD.inf, LD.inf] : List LD).length = 5 ∧
    ∀ s ∈ ([[], [], [], [], []] : List (List ℚ)),
      s.length = 10000 / 10001 :=
  c3_iteration_and_replicate_counts.2 10001 1 1 [[1]] [[1]]
    (fun _ => [[LD.fin 0]]) (fun _ => 0) (fun _ _ _ _ => 0)
    [[], [], [], [], []] [LD.inf, LD.inf, LD.inf, LD.inf, LD.inf] rfl

theorem optFold_invariant {α β : Type} (g : β → α → Option β) (P : β → Prop)
    (hstep : ∀ b a b2, P b → g b a = some b2 → P b2) :
    ∀ (L : List α) (b b2 : β), P b → optFold g b L = some b2 → P b2 := by
  intro L
  induction L with
  | nil =>
    intro b b2 hb h
    cases h
    exact hb
  | cons a l ih =>
    intro b b2 hb h
    rw [optFold_cons] at h
    cases hg : g b a with
    | none =>
      rw [hg] at h
      cases h
    | some b1 =>
      rw [hg, Option.some_bind] at h
      exact ih b1 b2 (hstep b a b1 hb hg) h

theorem update_pheromones_isMat {ov : LD} {path : List ℤ} {n : ℕ}
    {U : List (List LD)} (h : update_pheromones ov path n = some U) :
    isMat n U := by
  rw [update_pheromones] at h
  refine optFold_invariant _ (isMat n) ?_ _ _ _ (isMat_zerosMat n) h
  intro p x p2 hp hstep
  simp only [Option.bind_eq_bind, Option.bind_eq_some, Option.pure_def,
    Option.some.injEq] at hstep
  rcases hstep with ⟨i, hi, row, hrow, j, hj, v, hv, hp2⟩
  cases hp2
  constructor
  · rw [List.length_set]
    exact hp.1
  · intro r hr
    rcases List.mem_or_eq_of_mem_set hr with hr | hr
    · exact hp.2 r hr
    · rw [hr, List.length_set]
      exact hp.2 row (List.get?_mem hrow)

theorem mem_zipWith {α β γ : Type} {g : α → β → γ} :
    ∀ {a : List α} {b : List β} {c : γ}, c ∈ List.zipWith g a b →
      ∃ x y, x ∈ a ∧ y ∈ b ∧ c = g x y := by
  intro a
  induction a with
  | nil =>
    intro b c h
    cases h
  | cons x a ih =>
    intro b c h
    cases b with
    | nil => cases h
    | cons y b =>
      rw [List.zipWith_cons_cons, List.mem_cons] at h
      rcases h with h | h
      · exact ⟨x, y, List.mem_cons_self x a, List.mem_cons_self y b, h⟩
      · rcases ih h with ⟨x2, y2, hx2, hy2, hc⟩
        exact ⟨x2, y2, List.mem_cons_of_mem x hx2,
          List.mem_cons_of_mem y hy2, hc⟩

theorem isMat_matAddL {n : ℕ} {a b : List (List LD)} (ha : isMat n a)
    (hb : isMat n b) : isMat n (matAddL a b) := by
  constructor
  · rw [matAddL, List.length_zipWith, ha.1, hb.1]
    omega
  · intro r hr
    rcases mem_zipWith hr with ⟨ra, rb, hra, hrb, rfl⟩
    rw [List.length_zipWith, ha.2 ra hra, hb.2 rb hrb]
    omega

theorem zipWith_get? {α β γ : Type} (g : α → β → γ) :
    ∀ (a : List α) (b : List β) (i : ℕ),
      (List.zipWith g a b).get? i =
        match a.get? i, b.get? i with
        | some x, some y => some (g x y)
        | _, _ => none := by
  intro a
  induction a with
  | nil =>
    intro b i
    cases b <;> cases i <;> rfl
  | cons x a ih =>
    intro b i
    cases b with
    | nil =>
      cases i with
      | zero => rfl
      | succ i =>
        simp only [List.zipWith_nil_right, List.get?_nil,
          List.get?_cons_succ]
        cases a.get? i <;> rfl
    | cons y b =>
      cases i with
      | zero => rfl
      | succ i =>
        rw [List.zipWith_cons_cons]
        simp only [List.get?_cons_succ]
        exact ih b i

theorem getD_of_get? {α : Type} {l : List α} {i : ℕ} {x : α} (d : α)
    (h : l.get? i = some x) : l.getD i d = x := by
  rw [List.getD_eq_getElem?_getD, ← List.get?_eq_getElem?, h]
  rfl

theorem entryLD_matAddL {n : ℕ} {a b : List (List LD)} (ha : isMat n a)
    (hb : isMat n b) {i j : ℕ} (hi : i < n) (hj : j < n) :
    entryLD (matAddL a b) i j =
      LD.add (entryLD a i j) (entryLD b i j) := by
  have hga : a.get? i = some (a.getD i []) :=
    get?_eq_some_getD _ _ _ (by rw [ha.1]; exact hi)
  have hgb : b.get? i = some (b.getD i []) :=
    get?_eq_some_getD _ _ _ (by rw [hb.1]; exact hi)
  have hrow : (matAddL a b).get? i =
      some (List.zipWith LD.add (a.getD i []) (b.getD i [])) := by
    rw [matAddL, zipWith_get? _ a b i, hga, hgb]
  have hja : (a.getD i []).get? j = some ((a.getD i []).getD j (LD.fin 0)) :=
    get?_eq_some_getD _ _ _ (by rw [ha.2 _ (List.get?_mem hga)]; exact hj)
  have hjb : (b.getD i []).get? j = some ((b.getD i []).getD j (LD.fin 0)) :=
    get?_eq_some_getD _ _ _ (by rw [hb.2 _ (List.get?_mem hgb)]; exact hj)
  rw [entryLD, getD_of_get? _ hrow, getD_of_get? (LD.fin 0) (by
    rw [zipWith_get? LD.add _ _ j, hja, hjb]), entryLD, entryLD]

theorem entryLD_matScaleL {n : ℕ} {a : List (List LD)} (ha : isMat n a)
    {e : ℚ} {i j : ℕ} (hi : i < n) (hj : j < n) :
    entryLD (matScaleL a e) i j = LD.mulQ (entryLD a i j) e := by
  have hga : a.get? i = some (a.getD i []) :=
    get?_eq_some_getD _ _ _ (by rw [ha.1]; exact hi)
  have hrow : (matScaleL a e).get? i =
      some ((a.getD i []).map (fun v => LD.mulQ v e)) := by
    rw [matScaleL, List.get?_map, hga]
    rfl
  have hja : (a.getD i []).get? j = some ((a.getD i []).getD j (LD.fin 0)) :=
    get?_eq_some_getD _ _ _ (by rw [ha.2 _ (List.get?_mem hga)]; exact hj)
  rw [entryLD, getD_of_get? _ hrow, getD_of_get? (LD.fin 0) (by
    rw [List.get?_map, hja]; rfl), entryLD]

theorem antBody_eq {cfg : Cfg} {pher : List (List LD)} {x y : ℕ}
    {acc acc2 : ℚ × List (List LD) × LD}
    (h : antBody cfg pher x acc y = some acc2) :
    ∃ path fitness delta,
      generate_path cfg.n (Int.ofNat cfg.start) pher (cfg.us x y) =
        some path ∧
      get_fitness path cfg.d cfg.f = some fitness ∧
      update_pheromones (oneover_of fitness) path cfg.n = some delta ∧
      acc2 = (acc.1 + fitness, matAddL acc.2.1 delta,
        bestUpd acc.2.2 fitness) := by
  rw [antBody] at h
  simp only [Option.bind_eq_bind, Option.bind_eq_some, Option.pure_def,
    Option.some.injEq] at h
  rcases h with ⟨path, hpath, fitness, hfit, delta, hdelta, hacc2⟩
  exact ⟨path, fitness, delta, hpath, hfit, hdelta, hacc2.symm⟩

theorem antFold_isMat {cfg : Cfg} {pher : List (List LD)} {x : ℕ}
    {L : List ℕ} {acc r : ℚ × List (List LD) × LD}
    (h : optFold (antBody cfg pher x) acc L = some r)
    (hacc : isMat cfg.n acc.2.1) : isMat cfg.n r.2.1 := by
  refine optFold_invariant _ (fun a => isMat cfg.n a.2.1) ?_ L acc r hacc h
  intro b a b2 hb hstep
  rcases antBody_eq hstep with ⟨path, fitness, delta, _, _, hdelta, rfl⟩
  exact isMat_matAddL hb (update_pheromones_isMat hdelta)

theorem LD.add_zero_mul_one (v : LD) :
    LD.mulQ (LD.add v (LD.fin 0)) 1 = v := by
  cases v <;> norm_num [LD.add, LD.mulQ]

theorem row_add_zero_scale_one :
    ∀ (r : List LD) (m : ℕ), r.length = m →
      (List.zipWith LD.add r (List.replicate m (LD.fin 0))).map
        (fun v => LD.mulQ v 1) = r := by
  intro r
  induction r with
  | nil => intro m _; rw [List.zipWith_nil_left]; rfl
  | cons v r ih =>
    intro m hm
    cases m with
    | zero => cases hm
    | succ m =>
      rw [List.replicate_succ, List.zipWith_cons_cons, List.map_cons,
        LD.add_zero_mul_one, ih m (by
          rw [List.length_cons] at hm
          omega)]

theorem mat_add_zero_scale_one :
    ∀ (P : List (List LD)) (m n : ℕ), P.length = m →
      (∀ r ∈ P, r.length = n) →
      matScaleL (matAddL P
        (List.replicate m (List.replicate n (LD.fin 0)))) 1 = P := by
  intro P
  induction P with
  | nil => intro m n _ _; rw [matAddL, List.zipWith_nil_left]; rfl
  | cons r P ih =>
    intro m n hm hrows
    cases m with
    | zero => cases hm
    | succ m =>
      rw [List.replicate_succ, matAddL, List.zipWith_cons_cons, matScaleL,
        List.map_cons]
      have h1 : (List.zipWith LD.add r (List.replicate n (LD.fin 0))).map
          (fun v => LD.mulQ v 1) = r :=
        row_add_zero_scale_one r n (hrows r (List.mem_cons_self r P))
      have h2 := ih m n (by
          rw [List.length_cons] at hm
          omega)
        (fun r2 h2 => hrows r2 (List.mem_cons_of_mem r h2))
      rw [matAddL, matScaleL] at h2
      rw [h1, h2]

/-- Claim C5: at the end of every iteration of a run the new pheromone
matrix is (old matrix + accumulated deposit deltas) * evaporationRate,
element-wise, deposit applied before evaporation; and with
evaporationRate 1 and all-zero deltas the matrix is left unchanged. -/
theorem c5_deposit_then_evaporate :
    (∀ (cfg : Cfg) (s s2 : RunState) (x : ℕ), iterOnce cfg s x = some s2 →
      isMat cfg.n s.pher →
      ∃ total upd best2,
        optFold (antBody cfg s.pher x) (0, zerosMat cfg.n, s.best)
          (List.range cfg.m) = some (total, upd, best2) ∧
        isMat cfg.n upd ∧
        s2.pher = matScaleL (matAddL s.pher upd) cfg.e ∧
        (∀ i j : ℕ, i < cfg.n → j < cfg.n →
          entryLD s2.pher i j =
            LD.mulQ (LD.add (entryLD s.pher i j) (entryLD upd i j))
              cfg.e)) ∧
    (∀ (n : ℕ) (P : List (List LD)), isMat n P →
      matScaleL (matAddL P (zerosMat n)) 1 = P) := by
  constructor
  · intro cfg s s2 x h hpher
    rcases iterOnce_eq h with ⟨r, hfold, hs2⟩
    have hupd : isMat cfg.n r.2.1 := antFold_isMat hfold (isMat_zerosMat _)
    refine ⟨r.1, r.2.1, r.2.2, hfold, hupd, by rw [hs2], ?_⟩
    intro i j hi hj
    rw [hs2]
    show entryLD (matScaleL (matAddL s.pher r.2.1) cfg.e) i j = _
    rw [entryLD_matScaleL (isMat_matAddL hpher hupd) hi hj,
      entryLD_matAddL hpher hupd hi hj]
  · intro n P hP
    rw [zerosMat]
    exact mat_add_zero_scale_one P n n hP.1 hP.2

set_option maxHeartbeats 1000000 in
/-- Witness for C5: one iteration with one ant on a 1-node instance with
evaporation rate 1/2; and the evaporation-free identity on a concrete
1-by-1 matrix. -/
theorem c5_witness :
    (∃ total upd best2,
      optFold (antBody ⟨1, 1/2, 1, [[2]], [[2]], [[LD.fin 1]], 0,
          fun _ _ _ => 0⟩ [[LD.fin 1]] 0)
        (0, zerosMat 1, LD.inf) (List.range 1) = some (total, upd, best2) ∧
      isMat 1 upd ∧
      ([[LD.fin (1/2)]] : List (List LD)) =
        matScaleL (matAddL [[LD.fin 1]] upd) (1/2) ∧
      (∀ i j : ℕ, i < 1 → j < 1 →
        entryLD ([[LD.fin (1/2)]] : List (List LD)) i j =
          LD.mulQ (LD.add (entryLD [[LD.fin 1]] i j) (entryLD upd i j))
            (1/2))) ∧
    matScaleL (matAddL [[LD.fin 3]] (zerosMat 1)) 1 = [[LD.fin 3]] := by
  have hmat : isMat 1 ([[LD.fin 1]] : List (List LD)) := by
    constructor
    · rfl
    · intro r hr
      simp only [List.mem_cons, List.not_mem_nil, or_false] at hr
      rw [hr]
      rfl
  have hiter : iterOnce ⟨1, 1/2, 1, [[2]], [[2]], [[LD.fin 1]], 0,
        fun _ _ _ => 0⟩ ⟨[[LD.fin 1]], LD.inf, []⟩ 0 =
      some ⟨[[LD.fin (1/2)]], LD.fin 4, [4]⟩ := by
    simp only [iterOnce, antBody, generate_path, genStep, optFold,
      List.range, List.range', npDelete, optMap, normIdx, idList,
      List.range.loop, npIdx, get_fitness, update_pheromones, zerosMat,
      bestUpd, oneover_of, matAddL, matScaleL, LD.add, LD.mulQ, LD.ltB,
      List.map, Option.bind_eq_bind, Option.some_bind, Option.pure_def]
    norm_num [List.filter, List.filterMap, List.replicate, LD.add,
      List.set, LD.ltB, LD.mulQ, List.zipWith]
  constructor
  · rcases c5_deposit_then_evaporate.1
      ⟨1, 1/2, 1, [[2]], [[2]], [[LD.fin 1]], 0, fun _ _ _ => 0⟩
      ⟨[[LD.fin 1]], LD.inf, []⟩ ⟨[[LD.fin (1/2)]], LD.fin 4, [4]⟩ 0
      hiter hmat with ⟨total, upd, best2, h1, h2, h3, h4⟩
    exact ⟨total, upd, best2, h1, h2, h3, h4⟩
  · apply c5_deposit_then_evaporate.2
    constructor
    · rfl
    · intro r hr
      simp only [List.mem_cons, List.not_mem_nil, or_false] at hr
      rw [hr]
      rfl

theorem LD.le_refl (a : LD) : LD.le a a := Or.inl rfl

theorem LD.ltP_trans : ∀ {a b c : LD}, LD.ltP a b → LD.ltP b c →
    LD.ltP a c := by
  intro a b c h1 h2
  cases a <;> cases b <;> cases c <;> simp [LD.ltP] at h1 h2 ⊢ <;> linarith

theorem LD.le_trans : ∀ {a b c : LD}, LD.le a b → LD.le b c → LD.le a c := by
  intro a b c h1 h2
  rcases h1 with h1 | h1
  · cases h1
    exact h2
  · rcases h2 with h2 | h2
    · cases h2
      exact Or.inr h1
    · exact Or.inr (LD.ltP_trans h1 h2)

theorem le_bestUpd (b : LD) (q : ℚ) : LD.le (bestUpd b q) b := by
  rw [bestUpd]
  by_cases h : LD.ltB (LD.fin q) b = true
  · rw [if_pos h]
    refine Or.inr ?_
    cases b with
    | fin v =>
      simp only [LD.ltB, decide_eq_true_iff] at h
      exact h
    | inf => exact trivial
    | ninf => simp [LD.ltB] at h
    | nan => simp [LD.ltB] at h
  · rw [if_neg h]
    exact LD.le_refl b

theorem bestUpd_le_fin {v q : ℚ} : LD.le (bestUpd (LD.fin v) q) (LD.fin q) := by
  rw [bestUpd]
  by_cases h : LD.ltB (LD.fin q) (LD.fin v) = true
  · rw [if_pos h]
    exact LD.le_refl _
  · rw [if_neg h]
    simp only [LD.ltB, decide_eq_true_iff, not_lt] at h
    rcases lt_or_eq_of_le h with h2 | h2
    · exact Or.inr h2
    · exact Or.inl (by rw [h2])

theorem bestUpd_inf_or_fin {b : LD} (hb : b = LD.inf ∨ ∃ v, b = LD.fin v)
    (q : ℚ) : ∃ v, bestUpd b q = LD.fin v := by
  rcases hb with hb | ⟨v, hb⟩
  · cases hb
    exact ⟨q, by rw [bestUpd, if_pos (by rw [LD.ltB])]⟩
  · cases hb
    rw [bestUpd]
    by_cases h : LD.ltB (LD.fin q) (LD.fin v) = true
    · exact ⟨q, by rw [if_pos h]⟩
    · exact ⟨v, by rw [if_neg h]⟩

theorem foldl_bestUpd_le (fits : List ℚ) :
    ∀ b : LD, LD.le (fits.foldl bestUpd b) b := by
  induction fits with
  | nil => intro b; exact LD.le_refl b
  | cons q fits ih =>
    intro b
    rw [List.foldl_cons]
    exact LD.le_trans (ih (bestUpd b q)) (le_bestUpd b q)

theorem foldl_bestUpd_min (fits : List ℚ) :
    ∀ b : LD, b = LD.inf ∨ (∃ v, b = LD.fin v) →
      (fits.foldl bestUpd b = b ∨
        ∃ q ∈ fits, fits.foldl bestUpd b = LD.fin q) ∧
      (∀ q ∈ fits, LD.le (fits.foldl bestUpd b) (LD.fin q)) := by
  induction fits with
  | nil =>
    intro b _
    exact ⟨Or.inl rfl, fun q hq => absurd hq (List.not_mem_nil q)⟩
  | cons q fits ih =>
    intro b hb
    rcases bestUpd_inf_or_fin hb q with ⟨v2, hv2⟩
    rcases ih (bestUpd b q) (Or.inr ⟨v2, hv2⟩) with ⟨hshape, hbelow⟩
    rw [List.foldl_cons]
    constructor
    · rcases hshape with hshape | ⟨q2, hq2, hshape⟩
      · rw [hshape, bestUpd]
        by_cases h : LD.ltB (LD.fin q) b = true
        · rw [if_pos h]
          exact Or.inr ⟨q, List.mem_cons_self q fits, rfl⟩
        · rw [if_neg h]
          exact Or.inl rfl
      · exact Or.inr ⟨q2, List.mem_cons_of_mem q hq2, hshape⟩
    · intro q2 hq2
      rcases List.mem_cons.1 hq2 with hq2 | hq2
      · cases hq2
        refine LD.le_trans (foldl_bestUpd_le fits (bestUpd b q)) ?_
        rcases hb with hb | ⟨v, hb⟩
        · cases hb
          rw [bestUpd, if_pos (by rw [LD.ltB])]
          exact LD.le_refl _
        · cases hb
          exact bestUpd_le_fin
      · exact hbelow q2 hq2

theorem antFold_best {cfg : Cfg} {pher : List (List LD)} {x : ℕ} :
    ∀ (L : List ℕ) (acc r : ℚ × List (List LD) × LD),
      optFold (antBody cfg pher x) acc L = some r →
      ∃ fits, optMap (antFit cfg pher x) L = some fits ∧
        r.2.2 = fits.foldl bestUpd acc.2.2 := by
  intro L
  induction L with
  | nil =>
    intro acc r h
    cases h
    exact ⟨[], rfl, rfl⟩
  | cons y L ih =>
    intro acc r h
    rw [optFold_cons] at h
    cases hstep : antBody cfg pher x acc y with
    | none =>
      rw [hstep] at h
      cases h
    | some acc1 =>
      rw [hstep, Option.some_bind] at h
      rcases antBody_eq hstep with ⟨path, fitness, delta, hpath, hfit, _,
        hacc1⟩
      rcases ih acc1 r h with ⟨fits, hfits, hbest⟩
      refine ⟨fitness :: fits, ?_, ?_⟩
      · rw [optMap_cons, antFit, hpath, Option.some_bind, hfit,
          Option.some_bind, hfits]
        rfl
      · rw [List.foldl_cons, hbest, hacc1]

theorem runFrom_best {cfg : Cfg} :
    ∀ (L : List ℕ) (s s2 : RunState), runFrom cfg s L = some s2 →
      ∃ fits, runFitsGo cfg s L = some fits ∧
        s2.best = fits.foldl bestUpd s.best := by
  intro L
  induction L with
  | nil =>
    intro s s2 h
    cases h
    exact ⟨[], rfl, rfl⟩
  | cons x xs ih =>
    intro s s2 h
    rw [runFrom, optFold_cons] at h
    cases hstep : iterOnce cfg s x with
    | none =>
      rw [hstep] at h
      cases h
    | some s1 =>
      rw [hstep, Option.some_bind] at h
      rcases iterOnce_eq hstep with ⟨r, hfold, hs1⟩
      rcases antFold_best _ _ _ hfold with ⟨fits1, hfits1, hbest1⟩
      rcases ih s1 s2 h with ⟨fits2, hfits2, hbest2⟩
      refine ⟨fits1 ++ fits2, ?_, ?_⟩
      · rw [runFitsGo]
        rw [show iterFits cfg s.pher x = some fits1 from hfits1, hstep]
        simp only [Option.bind_eq_bind, Option.some_bind]
        rw [hfits2]
        rfl
      · rw [hbest2, hs1]
        show fits2.foldl bestUpd r.2.2 = _
        rw [hbest1, List.foldl_append]

/-- Claim C6: within one run the best fitness is monotonically
non-increasing over the ant evaluations (it starts at +inf and is replaced
only by strictly smaller fitnesses), both across the ants of one iteration
and across whole iterations, and the returned best fitness is the minimum
of all fitness values evaluated in the run (or +inf when no ant was
evaluated). -/
theorem c6_best_fitness_monotone_min :
    (∀ (cfg : Cfg) (pher : List (List LD)) (x : ℕ) (L : List ℕ)
      (acc r : ℚ × List (List LD) × LD),
      optFold (antBody cfg pher x) acc L = some r →
      LD.le r.2.2 acc.2.2) ∧
    (∀ (cfg : Cfg) (L : List ℕ) (s s2 : RunState),
      runFrom cfg s L = some s2 → LD.le s2.best s.best) ∧
    (∀ (cfg : Cfg) (series : List ℚ) (best : LD),
      main_run cfg = some (series, best) →
      ∃ fits, main_fits cfg = some fits ∧
        ((fits = [] ∧ best = LD.inf) ∨
          ∃ q, best = LD.fin q ∧ q ∈ fits ∧ ∀ r ∈ fits, q ≤ r)) := by
  refine ⟨?_, ?_, ?_⟩
  · intro cfg pher x L acc r h
    rcases antFold_best _ _ _ h with ⟨fits, _, hbest⟩
    rw [hbest]
    exact foldl_bestUpd_le fits acc.2.2
  · intro cfg L s s2 h
    rcases runFrom_best _ _ _ h with ⟨fits, _, hbest⟩
    rw [hbest]
    exact foldl_bestUpd_le fits s.best
  · intro cfg series best h
    rw [main_run] at h
    by_cases hm : cfg.m = 0
    · rw [if_pos hm] at h
      cases h
    rw [if_neg hm] at h
    by_cases hn : cfg.n = 0
    · rw [if_pos hn] at h
      cases h
    rw [if_neg hn] at h
    cases hrun : runFrom cfg (initState cfg) (List.range (10000 / cfg.m)) with
    | none =>
      rw [hrun] at h
      cases h
    | some s2 =>
      rw [hrun] at h
      simp only [Option.map_some', Option.some.injEq, Prod.mk.injEq] at h
      rcases runFrom_best _ _ _ hrun with ⟨fits, hfits, hbest⟩
      refine ⟨fits, ?_, ?_⟩
      · rw [main_fits, if_neg hm, if_neg hn]
        exact hfits
      · have hbest2 : best = fits.foldl bestUpd LD.inf := by
          rw [← h.2, hbest]
          rfl
        rcases foldl_bestUpd_min fits LD.inf (Or.inl rfl) with
          ⟨hshape, hbelow⟩
        rcases hshape with hshape | ⟨q0, hq0, hshape⟩
        · left
          refine ⟨?_, by rw [hbest2, hshape]⟩
          cases hfitsnil : fits with
          | nil => rfl
          | cons q fits2 =>
            exfalso
            have := hbelow q (by rw [hfitsnil]; exact List.mem_cons_self _ _)
            rw [hshape] at this
            rcases this with h2 | h2
            · cases h2
            · exact h2
        · right
          refine ⟨q0, by rw [hbest2, hshape], hq0, ?_⟩
          intro r hr
          have := hbelow r hr
          rw [hshape] at this
          rcases this with h2 | h2
          · rw [LD.fin.injEq] at h2
            exact le_of_eq h2
          · exact le_of_lt h2

set_option maxHeartbeats 1000000 in
/-- Witness for C6: the best fitness after one iteration of a one-ant run
is 4, below the initial +inf; and a zero-iteration run returns best
fitness +inf with an empty evaluation list. -/
theorem c6_witness :
    LD.le (LD.fin 4) LD.inf ∧
    (∃ fits, main_fits ⟨10001, 1, 1, [[1]], [[1]], [[LD.fin 0]], 0,
        fun _ _ _ => 0⟩ = some fits ∧
      ((fits = [] ∧ LD.inf = LD.inf) ∨
        ∃ q, LD.inf = LD.fin q ∧ q ∈ fits ∧ ∀ r ∈ fits, q ≤ r)) := by
  constructor
  · have hiter : iterOnce ⟨1, 1/2, 1, [[2]], [[2]], [[LD.fin 1]], 0,
          fun _ _ _ => 0⟩ ⟨[[LD.fin 1]], LD.inf, []⟩ 0 =
        some ⟨[[LD.fin (1/2)]], LD.fin 4, [4]⟩ := by
      simp only [iterOnce, antBody, generate_path, genStep, optFold,
        List.range, List.range', npDelete, optMap, normIdx, idList,
        List.range.loop, npIdx, get_fitness, update_pheromones, zerosMat,
        bestUpd, oneover_of, matAddL, matScaleL, LD.add, LD.mulQ, LD.ltB,
        List.map, Option.bind_eq_bind, Option.some_bind, Option.pure_def]
      norm_num [List.filter, List.filterMap, List.replicate, LD.add,
        List.set, LD.ltB, LD.mulQ, List.zipWith]
    have hrun : runFrom ⟨1, 1/2, 1, [[2]], [[2]], [[LD.fin 1]], 0,
          fun _ _ _ => 0⟩ ⟨[[LD.fin 1]], LD.inf, []⟩ [0] =
        some ⟨[[LD.fin (1/2)]], LD.fin 4, [4]⟩ := by
      rw [runFrom, optFold_cons, hiter, Option.some_bind]
      rfl
    exact c6_best_fitness_monotone_min.2.1 _ [0] _ _ hrun
  · exact c6_best_fitness_monotone_min.2.2 _ [] LD.inf rfl

theorem LD.nonneg_add {a b : LD} (ha : a.nonnegB = true)
    (hb : b.nonnegB = true) : (LD.add a b).nonnegB = true := by
  cases a <;> cases b <;>
    simp only [LD.nonnegB, LD.add, decide_eq_true_iff] at ha hb ⊢ <;>
    try linarith
  all_goals (first | rfl | exact ha | exact hb)

theorem LD.nonneg_mulQ {a : LD} {e : ℚ} (ha : a.nonnegB = true)
    (he : 0 < e) : (a.mulQ e).nonnegB = true := by
  cases a with
  | fin q =>
    simp only [LD.nonnegB, LD.mulQ, decide_eq_true_iff] at ha ⊢
    exact mul_nonneg ha (le_of_lt he)
  | inf =>
    simp only [LD.mulQ, if_pos he, LD.nonnegB]
  | ninf => simp [LD.nonnegB] at ha
  | nan => simp [LD.nonnegB] at ha

theorem matNonneg_zerosMat (n : ℕ) :
    ∀ r ∈ zerosMat n, ∀ v ∈ r, LD.nonnegB v = true := by
  intro r hr v hv
  rw [zerosMat] at hr
  rw [List.eq_of_mem_replicate hr] at hv
  rw [List.eq_of_mem_replicate hv]
  rfl

theorem matNonneg_matAddL {a b : List (List LD)}
    (ha : ∀ r ∈ a, ∀ v ∈ r, LD.nonnegB v = true)
    (hb : ∀ r ∈ b, ∀ v ∈ r, LD.nonnegB v = true) :
    ∀ r ∈ matAddL a b, ∀ v ∈ r, LD.nonnegB v = true := by
  intro r hr v hv
  rcases mem_zipWith hr with ⟨ra, rb, hra, hrb, rfl⟩
  rcases mem_zipWith hv with ⟨x, y, hx, hy, rfl⟩
  exact LD.nonneg_add (ha ra hra x hx) (hb rb hrb y hy)

theorem matNonneg_matScaleL {a : List (List LD)} {e : ℚ}
    (ha : ∀ r ∈ a, ∀ v ∈ r, LD.nonnegB v = true) (he : 0 < e) :
    ∀ r ∈ matScaleL a e, ∀ v ∈ r, LD.nonnegB v = true := by
  intro r hr v hv
  rw [matScaleL] at hr
  rcases List.mem_map.1 hr with ⟨ra, hra, rfl⟩
  rcases List.mem_map.1 hv with ⟨x, hx, rfl⟩
  exact LD.nonneg_mulQ (ha ra hra x hx) he

theorem matNonneg_update_pheromones {ov : LD} {path : List ℤ} {n : ℕ}
    {U : List (List LD)} (h : update_pheromones ov path n = some U)
    (hov : ov.nonnegB = true) :
    ∀ r ∈ U, ∀ v ∈ r, LD.nonnegB v = true := by
  rw [update_pheromones] at h
  refine optFold_invariant _
    (fun p => ∀ r ∈ p, ∀ v ∈ r, LD.nonnegB v = true) ?_ _ _ _
    (matNonneg_zerosMat n) h
  intro p x p2 hp hstep
  simp only [Option.bind_eq_bind, Option.bind_eq_some, Option.pure_def,
    Option.some.injEq] at hstep
  rcases hstep with ⟨i, _, row, hrow, j, _, v, hv, hp2⟩
  cases hp2
  intro r hr v2 hv2
  rcases List.mem_or_eq_of_mem_set hr with hr | hr
  · exact hp r hr v2 hv2
  · rw [hr] at hv2
    rcases List.mem_or_eq_of_mem_set hv2 with hv2 | hv2
    · exact hp row (List.get?_mem hrow) v2 hv2
    · rw [hv2]
      exact LD.nonneg_add
        (hp row (List.get?_mem hrow) v (List.get?_mem hv)) hov

/-- Claim C7: in a run with evaporation rate in (0, 1] whose every
evaluated fitness is strictly positive, every pheromone entry stays
non-negative after every iteration: initialisation yields values in
[0, 1), deposits add only non-negative amounts (1/fitness), and
evaporation multiplies by a non-negative factor. -/
theorem c7_pheromones_nonneg (cfg : Cfg) (he : 0 < cfg.e) (he1 : cfg.e ≤ 1)
    (hinit : ∀ r ∈ cfg.pher0, ∀ v ∈ r, ∃ q, v = LD.fin q ∧ 0 ≤ q ∧ q < 1)
    (hpos : ∀ (pher : List (List LD)) (x y : ℕ) (fit : ℚ),
      antFit cfg pher x y = some fit → 0 < fit) :
    ∀ (L : List ℕ) (s2 : RunState),
      runFrom cfg (initState cfg) L = some s2 →
      ∀ r ∈ s2.pher, ∀ v ∈ r, LD.nonnegB v = true := by
  intro L s2 hrun
  have hstep : ∀ (s : RunState) (x : ℕ) (s1 : RunState),
      (∀ r ∈ s.pher, ∀ v ∈ r, LD.nonnegB v = true) →
      iterOnce cfg s x = some s1 →
      ∀ r ∈ s1.pher, ∀ v ∈ r, LD.nonnegB v = true := by
    intro s x s1 hs hiter
    rcases iterOnce_eq hiter with ⟨r, hfold, hs1⟩
    have hupd : ∀ r2 ∈ r.2.1, ∀ v ∈ r2, LD.nonnegB v = true := by
      refine optFold_invariant _
        (fun acc => ∀ r2 ∈ acc.2.1, ∀ v ∈ r2, LD.nonnegB v = true) ?_
        _ _ _ (matNonneg_zerosMat cfg.n) hfold
      intro acc y acc2 hacc hbody
      rcases antBody_eq hbody with ⟨path, fitness, delta, hpath, hfit,
        hdelta, rfl⟩
      have hfitpos : 0 < fitness := by
        refine hpos s.pher x y fitness ?_
        rw [antFit, hpath]
        exact hfit
      have hov : (oneover_of fitness).nonnegB = true := by
        rw [oneover_of, if_neg (by positivity)]
        simp only [LD.nonnegB, decide_eq_true_iff]
        positivity
      exact matNonneg_matAddL hacc
        (matNonneg_update_pheromones hdelta hov)
    rw [hs1]
    exact matNonneg_matScaleL (matNonneg_matAddL hs hupd) he
  refine optFold_invariant _
    (fun s => ∀ r ∈ s.pher, ∀ v ∈ r, LD.nonnegB v = true) ?_ L _ _ ?_ hrun
  · intro s x s1 hs hiter
    exact hstep s x s1 hs hiter
  · intro r hr v hv
    rcases hinit r hr v hv with ⟨q, rfl, hq0, _⟩
    simp only [LD.nonnegB, decide_eq_true_iff]
    exact hq0

set_option maxHeartbeats 1000000 in
/-- Witness for C7: a one-iteration, one-ant run on a 1-node instance with
evaporation rate 1/2; every evaluated fitness is 4 > 0 and the pheromone
matrix stays non-negative. -/
theorem c7_witness :
    LD.nonnegB (entryLD [[LD.fin 0]] 0 0) = true := by
  have hgf : get_fitness [0] [[2]] [[2]] = some 4 := by
    simp [get_fitness, optFold, npIdx, normIdx]
    norm_num
  have hiter : iterOnce ⟨1, 1/2, 1, [[2]], [[2]], [[LD.fin 0]], 0,
        fun _ _ _ => 0⟩ ⟨[[LD.fin 0]], LD.inf, []⟩ 0 =
      some ⟨[[LD.fin 0]], LD.fin 4, [4]⟩ := by
    simp only [iterOnce, antBody, generate_path, genStep, optFold,
      List.range, List.range', npDelete, optMap, normIdx, idList,
      List.range.loop, npIdx, get_fitness, update_pheromones, zerosMat,
      bestUpd, oneover_of, matAddL, matScaleL, LD.add, LD.mulQ, LD.ltB,
      List.map, Option.bind_eq_bind, Option.some_bind, Option.pure_def]
    norm_num [List.filter, List.filterMap, List.replicate, LD.add,
      List.set, LD.ltB, LD.mulQ, List.zipWith]
  have hrun : runFrom ⟨1, 1/2, 1, [[2]], [[2]], [[LD.fin 0]], 0,
        fun _ _ _ => 0⟩
      (initState ⟨1, 1/2, 1, [[2]], [[2]], [[LD.fin 0]], 0,
        fun _ _ _ => 0⟩) [0] =
      some ⟨[[LD.fin 0]], LD.fin 4, [4]⟩ := by
    rw [runFrom, optFold_cons]
    rw [show initState ⟨1, 1/2, 1, [[2]], [[2]], [[LD.fin 0]], 0,
      fun _ _ _ => 0⟩ = ⟨[[LD.fin 0]], LD.inf, []⟩ from rfl, hiter,
      Option.some_bind]
    rfl
  have hmain := c7_pheromones_nonneg
    ⟨1, 1/2, 1, [[2]], [[2]], [[LD.fin 0]], 0, fun _ _ _ => 0⟩
    (by norm_num) (by norm_num) ?_ ?_ [0]
    ⟨[[LD.fin 0]], LD.fin 4, [4]⟩ hrun
  · exact hmain [LD.fin 0] (List.mem_cons_self _ _)
      (entryLD [[LD.fin 0]] 0 0) (by
        rw [show entryLD [[LD.fin 0]] 0 0 = LD.fin 0 from rfl]
        exact List.mem_cons_self _ _)
  · intro r hr v hv
    simp only [List.mem_cons, List.not_mem_nil, or_false] at hr
    rw [hr] at hv
    simp only [List.mem_cons, List.not_mem_nil, or_false] at hv
    exact ⟨0, hv, le_refl 0, by norm_num⟩
  · intro pher x y fit h
    have hgp : generate_path 1 (Int.ofNat 0) pher
        ((fun (_ _ _ : ℕ) => (0 : ℚ)) x y) = some [0] := rfl
    have h2 : get_fitness [0] [[2]] [[2]] = some fit := by
      rw [antFit] at h
      rw [hgp] at h
      exact h
    rw [hgf] at h2
    have h3 : (4 : ℚ) = fit := Option.some.inj h2
    rw [← h3]
    norm_num

theorem zero_fit_eval :
    get_fitness [0, 1] [[0, 0], [0, 0]] [[0, 0], [0, 0]] = some 0 := by
  simp [get_fitness, optFold, npIdx, normIdx]

theorem inf_deposit_eval :
    update_pheromones (oneover_of 0) [0, 1] 2 =
      some [[LD.fin 0, LD.inf], [LD.fin 0, LD.fin 0]] := by
  simp [update_pheromones, optFold, zerosMat, normIdx, oneover_of, LD.add]

set_option maxHeartbeats 1000000 in
theorem zero_fit_ant_first (y : ℕ) :
    antBody ⟨10000, 1, 2, [[0, 0], [0, 0]], [[0, 0], [0, 0]], zerosMat 2, 0,
        fun _ _ _ => 0⟩ (zerosMat 2) 0 ((0 : ℚ), zerosMat 2, LD.inf) y =
      some (0, [[LD.fin 0, LD.inf], [LD.fin 0, LD.fin 0]], LD.fin 0) := by
  rw [antBody]
  simp only [Option.bind_eq_bind, Option.pure_def]
  rw [show generate_path 2 (Int.ofNat 0) (zerosMat 2) (fun _ => (0 : ℚ)) =
    some [0, 1] from rfl]
  simp only [Option.some_bind]
  rw [zero_fit_eval]
  simp only [Option.some_bind]
  rw [inf_deposit_eval]
  simp only [Option.some_bind]
  norm_num [matAddL, zerosMat, LD.add, bestUpd, LD.ltB, List.zipWith,
    List.replicate]

set_option maxHeartbeats 1000000 in
theorem zero_fit_ant_fix (y : ℕ) :
    antBody ⟨10000, 1, 2, [[0, 0], [0, 0]], [[0, 0], [0, 0]], zerosMat 2, 0,
        fun _ _ _ => 0⟩ (zerosMat 2) 0
      ((0 : ℚ), [[LD.fin 0, LD.inf], [LD.fin 0, LD.fin 0]], LD.fin 0) y =
      some (0, [[LD.fin 0, LD.inf], [LD.fin 0, LD.fin 0]], LD.fin 0) := by
  rw [antBody]
  simp only [Option.bind_eq_bind, Option.pure_def]
  rw [show generate_path 2 (Int.ofNat 0) (zerosMat 2) (fun _ => (0 : ℚ)) =
    some [0, 1] from rfl]
  simp only [Option.some_bind]
  rw [zero_fit_eval]
  simp only [Option.some_bind]
  rw [inf_deposit_eval]
  simp only [Option.some_bind]
  norm_num [matAddL, zerosMat, LD.add, bestUpd, LD.ltB, List.zipWith,
    List.replicate]

theorem zero_fit_fold :
    optFold (antBody ⟨10000, 1, 2, [[0, 0], [0, 0]], [[0, 0], [0, 0]],
        zerosMat 2, 0, fun _ _ _ => 0⟩ (zerosMat 2) 0)
      ((0 : ℚ), zerosMat 2, LD.inf) (List.range 10000) =
      some (0, [[LD.fin 0, LD.inf], [LD.fin 0, LD.fin 0]], LD.fin 0) := by
  rw [List.range_eq_range', List.range'_succ, optFold_cons,
    zero_fit_ant_first 0, Option.some_bind]
  exact optFold_fix _ _ _ (fun y _ => zero_fit_ant_fix y)

set_option maxHeartbeats 1000000 in
theorem zero_fit_iter :
    iterOnce ⟨10000, 1, 2, [[0, 0], [0, 0]], [[0, 0], [0, 0]], zerosMat 2,
        0, fun _ _ _ => 0⟩ ⟨zerosMat 2, LD.inf, []⟩ 0 =
      some ⟨[[LD.fin 0, LD.inf], [LD.fin 0, LD.fin 0]], LD.fin 0, [0]⟩ := by
  rw [iterOnce]
  simp only [Option.bind_eq_bind, Option.pure_def]
  rw [show optFold (antBody ⟨10000, 1, 2, [[0, 0], [0, 0]],
      [[0, 0], [0, 0]], zerosMat 2, 0, fun _ _ _ => 0⟩ (zerosMat 2) 0)
      ((0 : ℚ), zerosMat 2, LD.inf) (List.range 10000) =
    some (0, [[LD.fin 0, LD.inf], [LD.fin 0, LD.fin 0]], LD.fin 0)
    from zero_fit_fold]
  simp only [Option.some_bind, Option.some.injEq]
  norm_num [matAddL, matScaleL, zerosMat, LD.add, LD.mulQ, List.zipWith,
    List.replicate]

theorem zero_fit_run :
    main_run ⟨10000, 1, 2, [[0, 0], [0, 0]], [[0, 0], [0, 0]], zerosMat 2,
        0, fun _ _ _ => 0⟩ = some ([0], LD.fin 0) := by
  rw [main_run, if_neg (show ¬ (10000 : ℕ) = 0 by decide),
    if_neg (show ¬ (2 : ℕ) = 0 by decide)]
  have hrf : runFrom ⟨10000, 1, 2, [[0, 0], [0, 0]], [[0, 0], [0, 0]],
      zerosMat 2, 0, fun _ _ _ => 0⟩
      ⟨zerosMat 2, LD.inf, []⟩ [0] =
      some ⟨[[LD.fin 0, LD.inf], [LD.fin 0, LD.fin 0]], LD.fin 0, [0]⟩ := by
    rw [runFrom, optFold_cons, zero_fit_iter, Option.some_bind, optFold_nil]
  rw [show List.range (10000 / 10000) = [0] from rfl,
    show initState ⟨10000, 1, 2, [[0, 0], [0, 0]], [[0, 0], [0, 0]],
      zerosMat 2, 0, fun _ _ _ => 0⟩ = ⟨zerosMat 2, LD.inf, []⟩ from rfl,
    hrf]
  rfl

/-- Counterexample to claim C8: on the all-zero distance and flow matrices
every ant fitness is exactly 0, yet the run completes normally and returns
a result instead of failing fatally. -/
theorem c8_counterexample :
    get_fitness [0, 1] [[0, 0], [0, 0]] [[0, 0], [0, 0]] = some 0 ∧
    main_run ⟨10000, 1, 2, [[0, 0], [0, 0]], [[0, 0], [0, 0]], zerosMat 2,
        0, fun _ _ _ => 0⟩ = some ([0], LD.fin 0) :=
  ⟨zero_fit_eval, zero_fit_run⟩

/-- Claim C8 (amended): when an ant fitness evaluates to exactly 0 the run
does not fail: numpy division produces oneover = +inf (with only a runtime
warning), the +inf value is deposited into the pheromone accumulator, and
the run continues to completion. -/
theorem c8_zero_fitness_inf_deposit :
    oneover_of 0 = LD.inf ∧
    (∃ U, update_pheromones (oneover_of 0) [0, 1] 2 = some U ∧
      entryLD U 0 1 = LD.inf) ∧
    main_run ⟨10000, 1, 2, [[0, 0], [0, 0]], [[0, 0], [0, 0]], zerosMat 2,
        0, fun _ _ _ => 0⟩ = some ([0], LD.fin 0) := by
  refine ⟨?_, ⟨[[LD.fin 0, LD.inf], [LD.fin 0, LD.fin 0]],
    inf_deposit_eval, rfl⟩, zero_fit_run⟩
  rw [oneover_of, if_pos rfl]

theorem optMap_length {α β : Type} {g : α → Option β} :
    ∀ {L : List α} {R : List β}, optMap g L = some R →
      R.length = L.length := by
  intro L
  induction L with
  | nil =>
    intro R h
    cases h
    rfl
  | cons a l ih =>
    intro R h
    rw [optMap_cons] at h
    cases hg : g a with
    | none =>
      rw [hg] at h
      cases h
    | some b =>
      rw [hg, Option.some_bind] at h
      cases hrest : optMap g l with
      | none =>
        rw [hrest] at h
        cases h
      | some R2 =>
        rw [hrest] at h
        cases h
        rw [List.length_cons, List.length_cons, ih hrest]

theorem optMap_mem_some {α β : Type} {g : α → Option β} :
    ∀ {L : List α} {R : List β}, optMap g L = some R →
      ∀ a ∈ L, ∃ b, g a = some b ∧ b ∈ R := by
  intro L
  induction L with
  | nil =>
    intro R _ a ha
    cases ha
  | cons a2 l ih =>
    intro R h a ha
    rw [optMap_cons] at h
    cases hg : g a2 with
    | none =>
      rw [hg] at h
      cases h
    | some b =>
      rw [hg, Option.some_bind] at h
      cases hrest : optMap g l with
      | none =>
        rw [hrest] at h
        cases h
      | some R2 =>
        rw [hrest] at h
        cases h
        rcases List.mem_cons.1 ha with ha | ha
        · cases ha
          exact ⟨b, hg, List.mem_cons_self b R2⟩
        · rcases ih hrest a ha with ⟨b2, hb2, hb2mem⟩
          exact ⟨b2, hb2, List.mem_cons_of_mem b hb2mem⟩

theorem optMap_append_singleton {α β : Type} {g : α → Option β} {a : α}
    {b : β} (hab : g a = some b) :
    ∀ {L : List α} {R : List β}, optMap g L = some R →
      optMap g (L ++ [a]) = some (R ++ [b]) := by
  intro L
  induction L with
  | nil =>
    intro R h
    cases h
    rw [List.nil_append, optMap_cons, hab, Option.some_bind, optMap_nil]
    rfl
  | cons a2 l ih =>
    intro R h
    rw [optMap_cons] at h
    cases hg : g a2 with
    | none =>
      rw [hg] at h
      cases h
    | some b2 =>
      rw [hg, Option.some_bind] at h
      cases hrest : optMap g l with
      | none =>
        rw [hrest] at h
        cases h
      | some R2 =>
        rw [hrest] at h
        cases h
        rw [List.cons_append, optMap_cons, hg, Option.some_bind, ih hrest]
        rfl

theorem normIdx_neg {n : ℕ} {v : ℤ} (h0 : -(n : ℤ) ≤ v) (hv : v < 0) :
    normIdx n v = some (v + n).toNat := by
  rw [normIdx, if_neg (by omega), if_pos ⟨h0, hv⟩]

theorem npDelete_of_optMap {α : Type} {n : ℕ} {l : List α} {path : List ℤ}
    {ks : List ℕ} (hlen : l.length = n)
    (hks : optMap (normIdx n) path = some ks) :
    npDelete l path = some
      (((List.range n).filter (fun k => decide (¬ k ∈ ks))).filterMap
        (fun k => l.get? k)) := by
  rw [npDelete, hlen, hks]
  rfl

theorem genStep_some_wide {n : ℕ} {pher : List (List LD)} {us : ℕ → ℚ}
    {i : ℕ} {path : List ℤ} {ks : List ℕ}
    (hpl : pher.length = n) (hrows : ∀ row ∈ pher, row.length = n)
    (hpos : ∀ row ∈ pher, ∀ w ∈ row, LD.posB w = true)
    (hks : optMap (normIdx n) path = some ks) (hnd : ks.Nodup)
    (hbd : ∀ k ∈ ks, k < n) (hlen : path.length = i) (hne : path ≠ [])
    (hin : i < n) :
    ∃ (c : ℤ) (k : ℕ), genStep n pher us path i = some (path ++ [c]) ∧
      normIdx n c = some k ∧ ¬ k ∈ ks ∧ k < n := by
  have hkslen : ks.length = i := by
    rw [optMap_length hks, hlen]
  have hnn : npDelete (idList n) path = some
      (((List.range n).filter (fun k => decide (¬ k ∈ ks))).filterMap
        (fun k => (idList n).get? k)) :=
    npDelete_of_optMap (idList_length n) hks
  have hfillen : ((List.range n).filter
      (fun k => decide (¬ k ∈ ks))).length = n - i := by
    rw [filter_range_notmem_length hnd hbd, hkslen]
  have hnnlen : (((List.range n).filter
      (fun k => decide (¬ k ∈ ks))).filterMap
        (fun k => (idList n).get? k)).length = n - i := by
    rw [filterMap_get?_length _ _ (fun k hk => by
        rw [idList_length]
        exact List.mem_range.1 (List.mem_filter.1 hk).1), hfillen]
  have hnnmem : ∀ c ∈ ((List.range n).filter
      (fun k => decide (¬ k ∈ ks))).filterMap
        (fun k => (idList n).get? k),
      ∃ k : ℕ, c = (k : ℤ) ∧ ¬ k ∈ ks ∧ k < n := by
    intro c hc
    rcases mem_filterMap_get? hc with ⟨k, hk, hget⟩
    rcases List.mem_filter.1 hk with ⟨hk1, hk2⟩
    have hkn := List.mem_range.1 hk1
    rw [idList_get? hkn] at hget
    cases hget
    rw [decide_eq_true_iff] at hk2
    exact ⟨k, rfl, hk2, hkn⟩
  have hnne : ((List.range n).filter
      (fun k => decide (¬ k ∈ ks))).filterMap
        (fun k => (idList n).get? k) ≠ [] := by
    have : 0 < (((List.range n).filter
        (fun k => decide (¬ k ∈ ks))).filterMap
          (fun k => (idList n).get? k)).length := by omega
    exact List.length_pos.1 this
  by_cases hbr : i = n - 1
  · cases hnnval : ((List.range n).filter
        (fun k => decide (¬ k ∈ ks))).filterMap
          (fun k => (idList n).get? k) with
    | nil => exact absurd hnnval hnne
    | cons c t =>
      rcases hnnmem c (by rw [hnnval]; exact List.mem_cons_self c t) with
        ⟨k, rfl, hknotin, hkn⟩
      refine ⟨(k : ℤ), k, ?_, ?_, hknotin, hkn⟩
      · rw [genStep]
        rw [hnnval] at hnn
        simp only [hnn, Option.bind_eq_bind, Option.some_bind,
          if_pos hbr, List.head?_cons, Option.pure_def]
      · rw [normIdx_of_bounds (Int.natCast_nonneg k) (by exact_mod_cast hkn),
          Int.toNat_natCast]
  · have hlast : path.getLast? = some (path.getLast hne) :=
      List.getLast?_eq_getLast path hne
    have hlastmem : path.getLast hne ∈ path := List.getLast_mem hne
    rcases optMap_mem_some hks _ hlastmem with ⟨klast, hklast, hklastmem⟩
    have hklastn : klast < n := hbd klast hklastmem
    have hrowget : pher.get? klast = some (pher.getD klast []) :=
      get?_eq_some_getD _ _ _ (by rw [hpl]; exact hklastn)
    have hrowmem : pher.getD klast [] ∈ pher := List.get?_mem hrowget
    have hrowlen : (pher.getD klast []).length = n := hrows _ hrowmem
    have hrow : npIdx pher (path.getLast hne) =
        some (pher.getD klast []) := by
      rw [npIdx, hpl, hklast, Option.some_bind]
      exact hrowget
    have hnph : npDelete (pher.getD klast []) path = some
        (((List.range n).filter (fun k => decide (¬ k ∈ ks))).filterMap
          (fun k => (pher.getD klast []).get? k)) :=
      npDelete_of_optMap hrowlen hks
    have hnphlen : (((List.range n).filter
        (fun k => decide (¬ k ∈ ks))).filterMap
          (fun k => (pher.getD klast []).get? k)).length = n - i := by
      rw [filterMap_get?_length _ _ (fun k hk => by
          rw [hrowlen]
          exact List.mem_range.1 (List.mem_filter.1 hk).1), hfillen]
    have hnphpos : ∀ w ∈ ((List.range n).filter
        (fun k => decide (¬ k ∈ ks))).filterMap
          (fun k => (pher.getD klast []).get? k), LD.posB w = true := by
      intro w hw
      rcases mem_filterMap_get? hw with ⟨k, _, hget⟩
      exact hpos _ hrowmem w (List.get?_mem hget)
    rcases random_choices_mem (u := us i) (by rw [hnphlen, hnnlen]) hnne
      hnphpos with ⟨c, hrc, hcmem⟩
    rcases hnnmem c hcmem with ⟨k, rfl, hknotin, hkn⟩
    refine ⟨(k : ℤ), k, ?_, ?_, hknotin, hkn⟩
    · rw [genStep]
      simp only [hnn, hlast, hrow, hnph, hrc, Option.bind_eq_bind,
        Option.some_bind, if_neg hbr, Option.pure_def]
    · rw [normIdx_of_bounds (Int.natCast_nonneg k) (by exact_mod_cast hkn),
        Int.toNat_natCast]

theorem generate_path_loop_wide {n : ℕ} {pher : List (List LD)}
    {us : ℕ → ℚ} (hpl : pher.length = n)
    (hrows : ∀ row ∈ pher, row.length = n)
    (hpos : ∀ row ∈ pher, ∀ w ∈ row, LD.posB w = true) :
    ∀ (kk i : ℕ) (path : List ℤ) (ks : List ℕ), i + kk = n → 1 ≤ i →
      path.length = i → path ≠ [] →
      optMap (normIdx n) path = some ks → ks.Nodup →
      (∀ k ∈ ks, k < n) →
      ∃ p, optFold (genStep n pher us) path (List.range' i kk) = some p ∧
        p.length = n ∧ p.head? = path.head? := by
  intro kk
  induction kk with
  | zero =>
    intro i path ks hik h1 hlen hne hks hnd hbd
    exact ⟨path, rfl, by omega, rfl⟩
  | succ kk ih =>
    intro i path ks hik h1 hlen hne hks hnd hbd
    rcases genStep_some_wide hpl hrows hpos hks hnd hbd hlen hne (by omega)
      with ⟨c, k, hstep, hck, hknotin, hkn⟩
    have hrange : List.range' i (kk + 1) = i :: List.range' (i + 1) kk :=
      List.range'_succ i kk 1
    rw [hrange, optFold_cons, hstep, Option.some_bind]
    have hks2 : optMap (normIdx n) (path ++ [c]) = some (ks ++ [k]) :=
      optMap_append_singleton hck hks
    have hnd2 : (ks ++ [k]).Nodup := by
      rw [List.nodup_append]
      exact ⟨hnd, List.nodup_singleton k, by
        intro k2 hk2 hk2c
        rw [List.mem_singleton] at hk2c
        cases hk2c
        exact hknotin hk2⟩
    have hbd2 : ∀ k2 ∈ ks ++ [k], k2 < n := by
      intro k2 hk2
      rcases List.mem_append.1 hk2 with hk2 | hk2
      · exact hbd k2 hk2
      · rw [List.mem_singleton] at hk2
        cases hk2
        exact hkn
    rcases ih (i + 1) (path ++ [c]) (ks ++ [k]) (by omega) (by omega)
      (by rw [List.length_append, hlen]; rfl) (by simp) hks2 hnd2 hbd2
      with ⟨p, hp, hplen, hphead⟩
    refine ⟨p, hp, hplen, ?_⟩
    rw [hphead]
    cases path with
    | nil => exact absurd rfl hne
    | cons a t => rfl

/-- Claim C9 (amended): generate_path raises when n is at least 2 and
start is outside [-n, n - 1]; it does not raise merely because start is
negative: numpy index normalisation accepts starts in [-n, -1], and with
an n-by-n pheromone matrix of positive weights such a call returns a full
n-node path whose first element is the negative start; and for n at most 1
the loop body never runs, so the single-element path [start] is returned
for any start whatsoever. -/
theorem c9_failure_conditions (n : ℕ) (start : ℤ) (pher : List (List LD))
    (us : ℕ → ℚ) :
    (n ≤ 1 → generate_path n start pher us = some [start]) ∧
    (2 ≤ n → ((n : ℤ) ≤ start ∨ start < -(n : ℤ)) →
      generate_path n start pher us = none) ∧
    (1 ≤ n → -(n : ℤ) ≤ start → start < 0 →
      pher.length = n → (∀ row ∈ pher, row.length = n) →
      (∀ row ∈ pher, ∀ w ∈ row, LD.posB w = true) →
      ∃ p, generate_path n start pher us = some p ∧ p.length = n ∧
        p.head? = some start) := by
  refine ⟨?_, ?_, ?_⟩
  · intro h1
    have hz : n - 1 = 0 := by omega
    rw [generate_path, hz]
    rfl
  · intro h2 hout
    have hnorm : normIdx n start = none := normIdx_oob hout
    have hdel : npDelete (idList n) [start] = none := by
      rw [npDelete, idList_length, optMap_cons, hnorm, Option.none_bind]
      rfl
    obtain ⟨k, hk⟩ : ∃ k, n - 1 = k + 1 := ⟨n - 2, by omega⟩
    rw [generate_path, hk, List.range'_succ, optFold_cons, genStep, hdel]
    rfl
  · intro h1 hge hlt hpl hrows hpos
    have hnorm : normIdx n start = some (start + n).toNat :=
      normIdx_neg hge hlt
    have hkn : (start + n).toNat < n := normIdx_lt hnorm
    have hmap : optMap (normIdx n) [start] = some [(start + n).toNat] := by
      rw [optMap_cons, hnorm, Option.some_bind, optMap_nil]
      rfl
    rcases generate_path_loop_wide hpl hrows hpos (n - 1) 1 [start]
      [(start + n).toNat] (by omega) (by omega) rfl
      (List.cons_ne_nil start []) hmap (List.nodup_singleton _)
      (fun k hk => by
        rw [List.mem_singleton] at hk
        cases hk
        exact hkn) with ⟨p, hp, hplen, hphead⟩
    exact ⟨p, hp, hplen, hphead⟩

/-- Witness for the amended C9: n = 0 returns the path [7]; n = 2 with
start = 5 raises; n = 2 with the in-range negative start -1 and positive
pheromones returns a full 2-node path headed by -1. -/
theorem c9_witness :
    generate_path 0 7 [] (fun _ => 0) = some [7] ∧
    generate_path 2 5 [] (fun _ => 0) = none ∧
    (∃ p, generate_path 2 (-1)
        [[LD.fin 1, LD.fin 1], [LD.fin 1, LD.fin 1]] (fun _ => 0) =
        some p ∧ p.length = 2 ∧ p.head? = some (-1)) := by
  refine ⟨(c9_failure_conditions 0 7 [] (fun _ => 0)).1 (by omega),
    (c9_failure_conditions 2 5 [] (fun _ => 0)).2.1 (by omega)
      (Or.inl (by omega)),
    (c9_failure_conditions 2 (-1) _ (fun _ => 0)).2.2 (by omega)
      (by omega) (by omega) rfl ?_ ?_⟩
  · intro row hrow
    simp only [List.mem_cons, List.not_mem_nil, or_false] at hrow
    rcases hrow with h | h <;> rw [h] <;> rfl
  · intro row hrow w hw
    simp only [List.mem_cons, List.not_mem_nil, or_false] at hrow
    rcases hrow with h | h <;> cases h <;>
      simp only [List.mem_cons, List.not_mem_nil, or_false] at hw <;>
      rcases hw with h2 | h2 <;> cases h2 <;> norm_num [LD.posB]
